import Mathlib

/-!
Shallow embedding of the `alias` package (alias.go): alias-method tables for
discrete sampling.  Machine integers (`uint32`, `uint64`) are modelled as `Nat`
with explicit `% 2^32` reductions at the operations where Go wraps; signed
`int32` values are modelled as `Int`.  Go panics and `(pointer, error)` returns
are modelled with explicit result types.
-/

/-- One table slot (`ipiece` in alias.go): a probability threshold in `[0, 2^31)`
and the index redirected to when a draw exceeds the threshold. -/
structure Ipiece where
  prob : Nat
  aliasIdx : Nat
deriving DecidableEq, Repr

/-- The alias table (`Alias` in alias.go): slot list plus the precomputed
rejection bounds `maxRi`/`maxRj`, the fixed-point unit `avgP` and the dummy
index. -/
structure AliasTable where
  table : List Ipiece
  maxRi : Nat
  maxRj : Nat
  avgP : Nat
  dummy : Nat
deriving DecidableEq, Repr

/-- `calcMax` (alias.go line 33): `(1<<31) - 1 - (1<<31) % n` in `uint32`
arithmetic.  In Go, `% 0` is a runtime panic, modelled by `none`; for
`n > 2^31` the `uint32` subtraction wraps, modelled by the `+ 2^32 … % 2^32`. -/
def calcMax (n : Nat) : Option Nat :=
  if n = 0 then none
  else some ((2 ^ 31 - 1 + 2 ^ 32 - 2 ^ 31 % n) % 2 ^ 32)

/-- The value `calcMax` returns on a nonzero argument. -/
def calcMaxVal (n : Nat) : Nat :=
  (2 ^ 31 - 1 + 2 ^ 32 - 2 ^ 31 % n) % 2 ^ 32

theorem calcMax_eq_val (n : Nat) (h : n ≠ 0) : calcMax n = some (calcMaxVal n) := by
  simp [calcMax, calcMaxVal, h]

/-- `checkAvgP` (alias.go line 40) succeeds iff some slot has
`prob = avgP - 1` (`uint32` subtraction); on failure the Go code panics. -/
def checkAvgP (al : AliasTable) : Bool :=
  al.table.any fun p => p.prob == (al.avgP + 2 ^ 32 - 1) % 2 ^ 32

/-- Little-endian encoding of a `uint32` into four bytes
(`binary.LittleEndian.PutUint32`). -/
def putUint32 (v : Nat) : List Nat :=
  [v % 256, v / 256 % 256, v / 2 ^ 16 % 256, v / 2 ^ 24 % 256]

/-- Little-endian read of a `uint32` from the first four bytes of a buffer
(`binary.LittleEndian.Uint32`); bytes are reduced `% 256` since Go's `byte`
type is 8-bit. -/
def getUint32 (b : List Nat) : Nat :=
  b.getD 0 0 % 256 + 256 * (b.getD 1 0 % 256) + 2 ^ 16 * (b.getD 2 0 % 256)
    + 2 ^ 24 * (b.getD 3 0 % 256)

/-- Serialization of the slot records, in index order, eight bytes per slot:
threshold then alias, little-endian (alias.go lines 289-293). -/
def encodeSlots : List Ipiece → List Nat
  | [] => []
  | e :: r => putUint32 e.prob ++ putUint32 e.aliasIdx ++ encodeSlots r

/-- `MarshalBinary` (alias.go line 287): all slot records, followed by a
trailing `uint32` holding `dummy` exactly when `dummy != uint32(len(table))`. -/
def marshalBinary (al : AliasTable) : List Nat :=
  encodeSlots al.table ++
    (if al.dummy ≠ al.table.length % 2 ^ 32 then putUint32 al.dummy else [])

/-- Outcome of `UnmarshalBinary` on a receiver: a Go `error` return together
with the receiver's final state, or a runtime panic. -/
inductive UnmarshalRes where
  | ret (err : Option String) (state : AliasTable)
  | panicked (msg : String)
deriving DecidableEq, Repr

/-- The slot-parsing loop of `UnmarshalBinary` (alias.go lines 312-327): `m`
slots left to read from `bytes`, validated against the total slot count
`total`.  On a validation failure it returns the error and the value of the
remaining (still zeroed) part of the freshly allocated table, so the caller
can reconstruct the partially populated receiver exactly as in Go. -/
def parseSlots (total : Nat) : Nat → List Nat → (Option String × List Ipiece)
  | 0, _ => (none, [])
  | m + 1, bytes =>
    let prob := getUint32 bytes
    let aliasIdx := getUint32 (bytes.drop 4)
    if 2 ^ 31 ≤ prob then
      (some "bad data: probability out of range", List.replicate (m + 1) ⟨0, 0⟩)
    else if total ≤ aliasIdx then
      (some "bad data: alias target out of range", List.replicate (m + 1) ⟨0, 0⟩)
    else
      let r := parseSlots total m (bytes.drop 8)
      (r.1, ⟨prob, aliasIdx⟩ :: r.2)

/-- `UnmarshalBinary` (alias.go line 303).  The receiver `al` is threaded
through so that the partially-mutated state on each return is explicit: the
length checks return before any mutation; slot-validation failures happen
after `al.table` has been reallocated.  `calcMax` on a zero slot count is the
divide-by-zero panic of the Go code. -/
def unmarshalBinary (al : AliasTable) (p : List Nat) : UnmarshalRes :=
  if p.length % 4 ≠ 0 then .ret (some "bad data length") al
  else if ¬ p.length / 8 < 2 ^ 32 then .ret (some "data too large") al
  else
    let M := p.length / 8
    match parseSlots M M p with
    | (some e, t) => .ret (some e) { al with table := t }
    | (none, t) =>
      let maxProb := t.foldl (fun m e => max m e.prob) 0
      let avgP := (maxProb + 1) % 2 ^ 32
      match calcMax (M % 2 ^ 32) with
      | none => .panicked "runtime error: integer divide by zero"
      | some ri =>
        match calcMax avgP with
        | none => .panicked "runtime error: integer divide by zero"
        | some rj =>
          let dummy := if p.length % 8 ≠ 0 then getUint32 (p.drop (p.length - 4)) else M
          .ret none ⟨t, ri, rj, avgP, dummy⟩

/-- Result of a Go constructor returning `(*Alias, error)`: the returned
pointer (possibly nil) paired with the returned error, or a runtime panic. -/
inductive BuildResult where
  | ret (table : Option AliasTable) (err : Option String)
  | panicked (msg : String)
deriving DecidableEq, Repr

/-- Go's `uint32(p)` conversion of an `int32` value. -/
def u32ofInt (p : Int) : Nat := (p % 2 ^ 32).toNat

/-- Go's `int32(x)` conversion of a `uint64` value (used for the appended
dummy weight, alias.go line 192): the low 32 bits, interpreted as signed. -/
def int32ofU64 (x : Nat) : Int :=
  if x % 2 ^ 32 < 2 ^ 31 then (x % 2 ^ 32 : Int) else (x % 2 ^ 32 : Int) - 2 ^ 32

/-- The padding step of `NewInt` (alias.go lines 185-193): when the average
does not divide the total exactly, one synthetic weight
`uint64(avg)*uint64(n) - total` (with the incremented `avg`, `n`) is appended
and `avg`, `n` grow by one.  Returns the weights, `avg` and `n` used by the
rest of the builder. -/
def padStep (prob : List Int) (n total avg : Nat) : List Int × Nat × Nat :=
  if avg * n < total then
    (prob ++ [int32ofU64 ((avg + 1) * (n + 1) - total)], avg + 1, n + 1)
  else (prob, avg, n)

/-- The small/large partition of `NewInt` (alias.go lines 206-217): weights
are scanned in order and paired with their index; `uint32(p) >= avg` goes on
the large stack, anything else on the small stack.  Stacks are lists whose
head is the stack top. -/
def partitionPieces (avg : Nat) : List Int → Nat → List Ipiece → List Ipiece →
    List Ipiece × List Ipiece
  | [], _, sm, lg => (sm, lg)
  | p :: rest, i, sm, lg =>
    if avg ≤ u32ofInt p then partitionPieces avg rest (i + 1) sm (⟨u32ofInt p, i⟩ :: lg)
    else partitionPieces avg rest (i + 1) (⟨u32ofInt p, i⟩ :: sm) lg

/-- The pairing loop of `NewInt` (alias.go lines 225-246), the `uint32`
subtractions written as `+ 2^32 … % 2^32`.  The loop runs while both stacks
are nonempty; each iteration removes one piece from each stack and pushes one
back, so with `fuel` set to the piece count the recursion is never cut short;
the argument only makes it structural. -/
def voseLoop (avg : Nat) : Nat → List Ipiece → List Ipiece → List Ipiece →
    List Ipiece × List Ipiece × List Ipiece
  | fuel + 1, l :: sm, g :: lg, table =>
    let table' := table.set l.aliasIdx ⟨(l.prob + 2 ^ 32 - 1) % 2 ^ 32, g.aliasIdx⟩
    let gp := (g.prob + l.prob + (2 ^ 32 - avg)) % 2 ^ 32
    if gp < avg then voseLoop avg fuel (⟨gp, g.aliasIdx⟩ :: sm) lg table'
    else voseLoop avg fuel sm (⟨gp, g.aliasIdx⟩ :: lg) table'
  | _, sm, lg, table => (sm, lg, table)

/-- The cleanup loop of `NewInt` (alias.go lines 249-251): every piece left on
the large stack has its table slot's threshold set to `avg - 1`, the slot's
alias field kept; the stack is written bottom-first exactly as the Go loop
iterates. -/
def clearLarge (avg : Nat) (lg : List Ipiece) (table : List Ipiece) : List Ipiece :=
  lg.foldr
    (fun g t =>
      t.set g.aliasIdx ⟨(avg + 2 ^ 32 - 1) % 2 ^ 32, (t.getD g.aliasIdx ⟨0, 0⟩).aliasIdx⟩)
    table

/-- `NewInt` (alias.go line 159).  The `sm.length + lg.length ≠ n'` test is
the `lgBot != smTop+1` consistency check of line 219. -/
def newInt (prob : List Int) : BuildResult :=
  let n := prob.length
  if n < 1 then .ret none (some "too few probabilities")
  else if ¬ n < 2 ^ 32 then .ret none (some "too many probabilities")
  else if prob.any (· ≤ 0) then .ret none (some "a probability is non-positive")
  else
    let total := (prob.map Int.toNat).sum
    let dummy := n
    let r := padStep prob n total (total / n % 2 ^ 32)
    let avg := r.2.1
    let n' := r.2.2
    let pr := partitionPieces avg r.1 0 [] []
    if pr.1.length + pr.2.length ≠ n' then .panicked "alias.New: internal error"
    else
      let v := voseLoop avg n' pr.1 pr.2 (List.replicate n' ⟨0, 0⟩)
      let table' := clearLarge avg v.2.1 v.2.2
      if v.1 ≠ [] then .panicked "alias.NewInt: internal error"
      else
        match calcMax (n' % 2 ^ 32) with
        | none => .panicked "runtime error: integer divide by zero"
        | some ri =>
          match calcMax (avg % 2 ^ 32) with
          | none => .panicked "runtime error: integer divide by zero"
          | some rj =>
            let al : AliasTable := ⟨table', ri, rj, avg % 2 ^ 32, dummy⟩
            if checkAvgP al then .ret (some al) none
            else .panicked "Internal error: no piece with prob = al.avgP-1 found."

/-- Result of one pass of `Gen`'s retry loop. -/
inductive GenStep where
  | retry
  | val (w : Nat)
  | panicked (msg : String)
deriving DecidableEq, Repr

/-- One pass of `Gen` (alias.go lines 268-283) on a 63-bit draw `r`: `ri`/`rj`
are the low and high 31 bits; a draw exceeding a rejection bound or resolving
to the dummy index restarts the loop (`retry`); `% 0` panics as in Go. -/
def gen1 (al : AliasTable) (r : Nat) : GenStep :=
  let ri := r % 2 ^ 31
  let rj := r / 2 ^ 31 % 2 ^ 31
  if al.maxRi < ri ∨ al.maxRj < rj then .retry
  else
    let M := al.table.length % 2 ^ 32
    if M = 0 then .panicked "runtime error: integer divide by zero"
    else
      let w := ri % M
      if al.avgP = 0 then .panicked "runtime error: integer divide by zero"
      else
        let x := rj % al.avgP
        let e := al.table.getD w ⟨0, 0⟩
        let w' := if e.prob < x then e.aliasIdx else w
        if w' = al.dummy then .retry else .val w'

theorem putUint32_length (v : Nat) : (putUint32 v).length = 4 := rfl

theorem getUint32_putUint32 (v : Nat) (hv : v < 2 ^ 32) (r : List Nat) :
    getUint32 (putUint32 v ++ r) = v := by
  simp only [putUint32, getUint32, List.cons_append, List.nil_append,
    List.getD_cons_zero, List.getD_cons_succ]
  omega

theorem drop4_putUint32 (v : Nat) (r : List Nat) : (putUint32 v ++ r).drop 4 = r := rfl

theorem drop8_putUint32 (v w : Nat) (r : List Nat) :
    (putUint32 v ++ (putUint32 w ++ r)).drop 8 = r := rfl

theorem encodeSlots_length (ts : List Ipiece) : (encodeSlots ts).length = 8 * ts.length := by
  induction ts with
  | nil => rfl
  | cons e ts ih =>
    simp only [encodeSlots, List.length_append, putUint32_length, ih, List.length_cons]
    ring

theorem parseSlots_encode (total : Nat) :
    ∀ (ts : List Ipiece) (rest : List Nat),
      (∀ e ∈ ts, e.prob < 2 ^ 31 ∧ e.aliasIdx < total ∧ e.aliasIdx < 2 ^ 32) →
      parseSlots total ts.length (encodeSlots ts ++ rest) = (none, ts) := by
  intro ts
  induction ts with
  | nil => intro rest _; rfl
  | cons e ts ih =>
    intro rest h
    obtain ⟨hp, ha, ha32⟩ := h e (List.mem_cons_self e ts)
    have hrec := ih (rest) (fun x hx => h x (List.mem_cons_of_mem e hx))
    simp only [List.length_cons, encodeSlots, List.append_assoc]
    rw [parseSlots]
    rw [getUint32_putUint32 e.prob (by omega), drop4_putUint32,
      getUint32_putUint32 e.aliasIdx ha32]
    rw [if_neg (by omega), if_neg (by omega)]
    simp only [drop8_putUint32, hrec]

theorem foldl_max_le (t : List Ipiece) (b : Nat) (hb : ∀ e ∈ t, e.prob ≤ b) :
    ∀ acc, acc ≤ b → t.foldl (fun m e => max m e.prob) acc ≤ b := by
  induction t with
  | nil => intro acc h; simpa using h
  | cons e t ih =>
    intro acc hacc
    simp only [List.foldl_cons]
    exact ih (fun x hx => hb x (List.mem_cons_of_mem e hx))
      _ (by simp [hacc, hb e (List.mem_cons_self e t)])

theorem le_foldl_max (t : List Ipiece) : ∀ acc, acc ≤ t.foldl (fun m e => max m e.prob) acc := by
  induction t with
  | nil => intro acc; simp
  | cons e t ih =>
    intro acc
    simp only [List.foldl_cons]
    exact le_trans (le_max_left _ _) (ih _)

theorem mem_le_foldl_max (t : List Ipiece) (e : Ipiece) (he : e ∈ t) :
    ∀ acc, e.prob ≤ t.foldl (fun m x => max m x.prob) acc := by
  induction t with
  | nil => cases he
  | cons x t ih =>
    intro acc
    simp only [List.foldl_cons]
    rcases List.mem_cons.mp he with h | h
    · subst h; exact le_trans (le_max_right _ _) (le_foldl_max t _)
    · exact ih h _

theorem foldl_max_eq (t : List Ipiece) (b : Nat) (hb : ∀ e ∈ t, e.prob ≤ b)
    (hex : ∃ e ∈ t, e.prob = b) : t.foldl (fun m e => max m e.prob) 0 = b := by
  obtain ⟨e, he, hpe⟩ := hex
  exact le_antisymm (foldl_max_le t b hb 0 (Nat.zero_le b))
    (hpe ▸ mem_le_foldl_max t e he 0)

/-- The invariant shared by every table either builder returns, sufficient for
the binary encoding to round-trip. -/
def WellFormed (al : AliasTable) : Prop :=
  1 ≤ al.table.length ∧ al.table.length < 2 ^ 32 ∧
  1 ≤ al.avgP ∧ al.avgP ≤ 2 ^ 31 ∧
  (∀ e ∈ al.table, e.prob ≤ al.avgP - 1 ∧ e.aliasIdx < al.table.length) ∧
  (∃ e ∈ al.table, e.prob = al.avgP - 1) ∧
  al.maxRi = calcMaxVal al.table.length ∧ al.maxRj = calcMaxVal al.avgP ∧
  al.dummy < 2 ^ 32

/-- Decoding inverts encoding on any well-formed table, for any receiver. -/
theorem roundtrip_of_wellFormed (al₀ al : AliasTable) (h : WellFormed al) :
    unmarshalBinary al₀ (marshalBinary al) = .ret none al := by
  obtain ⟨hM1, hM32, hu1, hu31, hent, hex, hri, hrj, hd32⟩ := h
  have hMmod : al.table.length % 2 ^ 32 = al.table.length := Nat.mod_eq_of_lt hM32
  have hents : ∀ e ∈ al.table,
      e.prob < 2 ^ 31 ∧ e.aliasIdx < al.table.length ∧ e.aliasIdx < 2 ^ 32 := by
    intro e he
    obtain ⟨h1, h2⟩ := hent e he
    exact ⟨by omega, h2, by omega⟩
  have hfold : al.table.foldl (fun m e => max m e.prob) 0 = al.avgP - 1 :=
    foldl_max_eq al.table (al.avgP - 1) (fun e he => (hent e he).1) hex
  have havgmod : (al.avgP - 1 + 1) % 2 ^ 32 = al.avgP := by omega
  by_cases hd : al.dummy = al.table.length
  · have hmar : marshalBinary al = encodeSlots al.table ++ [] := by
      rw [marshalBinary, hMmod, if_neg (by omega)]
    have hlen : (marshalBinary al).length = 8 * al.table.length := by
      rw [hmar, List.append_nil, encodeSlots_length]
    have h8 : (marshalBinary al).length / 8 = al.table.length := by omega
    have hparse : parseSlots al.table.length al.table.length (marshalBinary al)
        = (none, al.table) := by
      rw [hmar]
      exact parseSlots_encode al.table.length al.table [] hents
    rw [unmarshalBinary]
    rw [if_neg (by omega), if_neg (by push_neg; omega)]
    simp only [h8, hparse, hfold, havgmod, hMmod]
    rw [calcMax_eq_val _ (by omega), calcMax_eq_val _ (by omega)]
    simp only [hlen, Nat.mul_mod_right, ne_eq, not_true_eq_false, ite_false]
    rw [← hri, ← hrj, ← hd]
  · have hmar : marshalBinary al = encodeSlots al.table ++ putUint32 al.dummy := by
      rw [marshalBinary, hMmod, if_pos (by omega)]
    have hlen : (marshalBinary al).length = 8 * al.table.length + 4 := by
      rw [hmar, List.length_append, encodeSlots_length, putUint32_length]
    have h8 : (marshalBinary al).length / 8 = al.table.length := by omega
    have hparse : parseSlots al.table.length al.table.length (marshalBinary al)
        = (none, al.table) := by
      rw [hmar]
      exact parseSlots_encode al.table.length al.table (putUint32 al.dummy) hents
    have hdrop : (marshalBinary al).drop ((marshalBinary al).length - 4) = putUint32 al.dummy := by
      rw [hlen, hmar]
      have h4 : 8 * al.table.length + 4 - 4 = (encodeSlots al.table).length := by
        rw [encodeSlots_length]; omega
      rw [h4, List.drop_left]
    have hget : getUint32 (putUint32 al.dummy) = al.dummy := by
      have := getUint32_putUint32 al.dummy hd32 []
      rwa [List.append_nil] at this
    rw [unmarshalBinary]
    rw [if_neg (by omega), if_neg (by push_neg; omega)]
    simp only [h8, hparse, hfold, havgmod, hMmod]
    rw [calcMax_eq_val _ (by omega), calcMax_eq_val _ (by omega)]
    rw [if_pos (by omega), hdrop, hget]
    rw [← hri, ← hrj]

/-- Total probability mass carried by a stack of pieces. -/
def sumProb (l : List Ipiece) : Nat := (l.map Ipiece.prob).sum

theorem sumProb_cons (e : Ipiece) (l : List Ipiece) : sumProb (e :: l) = e.prob + sumProb l := by
  simp [sumProb]

theorem partitionPieces_len_sum (avg : Nat) :
    ∀ (ps : List Int) (i : Nat) (sm lg : List Ipiece),
      (partitionPieces avg ps i sm lg).1.length + (partitionPieces avg ps i sm lg).2.length
          = ps.length + (sm.length + lg.length) ∧
      sumProb (partitionPieces avg ps i sm lg).1 + sumProb (partitionPieces avg ps i sm lg).2
          = (ps.map u32ofInt).sum + (sumProb sm + sumProb lg) := by
  intro ps
  induction ps with
  | nil => intro i sm lg; simp [partitionPieces]
  | cons p ps ih =>
    intro i sm lg
    rw [partitionPieces]
    by_cases hc : avg ≤ u32ofInt p
    · rw [if_pos hc]
      obtain ⟨h1, h2⟩ := ih (i + 1) sm (⟨u32ofInt p, i⟩ :: lg)
      constructor
      · rw [h1]; simp; omega
      · rw [h2]; simp [sumProb_cons]; omega
    · rw [if_neg hc]
      obtain ⟨h1, h2⟩ := ih (i + 1) (⟨u32ofInt p, i⟩ :: sm) lg
      constructor
      · rw [h1]; simp; omega
      · rw [h2]; simp [sumProb_cons]; omega

theorem partitionPieces_inv (avg lo hi n : Nat) :
    ∀ (ps : List Int) (i : Nat) (sm lg : List Ipiece),
      (∀ p ∈ ps, lo ≤ u32ofInt p ∧ u32ofInt p ≤ hi) →
      i + ps.length ≤ n →
      (∀ e ∈ sm, (lo ≤ e.prob ∧ e.prob ≤ hi) ∧ e.prob < avg ∧ e.aliasIdx < n) →
      (∀ e ∈ lg, (lo ≤ e.prob ∧ e.prob ≤ hi) ∧ avg ≤ e.prob ∧ e.aliasIdx < n) →
      (∀ e ∈ (partitionPieces avg ps i sm lg).1,
          (lo ≤ e.prob ∧ e.prob ≤ hi) ∧ e.prob < avg ∧ e.aliasIdx < n) ∧
      (∀ e ∈ (partitionPieces avg ps i sm lg).2,
          (lo ≤ e.prob ∧ e.prob ≤ hi) ∧ avg ≤ e.prob ∧ e.aliasIdx < n) := by
  intro ps
  induction ps with
  | nil => intro i sm lg _ _ hsm hlg; exact ⟨hsm, hlg⟩
  | cons p ps ih =>
    intro i sm lg hps hn hsm hlg
    obtain ⟨hplo, hphi⟩ := hps p (List.mem_cons_self p ps)
    have hps' : ∀ q ∈ ps, lo ≤ u32ofInt q ∧ u32ofInt q ≤ hi :=
      fun q hq => hps q (List.mem_cons_of_mem p hq)
    simp only [List.length_cons] at hn
    rw [partitionPieces]
    by_cases hc : avg ≤ u32ofInt p
    · rw [if_pos hc]
      refine ih (i + 1) sm (⟨u32ofInt p, i⟩ :: lg) hps' (by omega) hsm ?_
      intro e he
      rcases List.mem_cons.mp he with h | h
      · subst h; exact ⟨⟨hplo, hphi⟩, hc, show i < n by omega⟩
      · exact hlg e h
    · rw [if_neg hc]
      refine ih (i + 1) (⟨u32ofInt p, i⟩ :: sm) lg hps' (by omega) ?_ hlg
      intro e he
      rcases List.mem_cons.mp he with h | h
      · subst h; exact ⟨⟨hplo, hphi⟩, show u32ofInt p < avg by omega, show i < n by omega⟩
      · exact hsm e h

theorem sumProb_lt_of_all_lt (avg : Nat) (l : List Ipiece) (hne : l ≠ [])
    (h : ∀ e ∈ l, e.prob < avg) : sumProb l < avg * l.length := by
  induction l with
  | nil => exact absurd rfl hne
  | cons a l ih =>
    rw [sumProb_cons, List.length_cons, Nat.mul_succ]
    by_cases hl : l = []
    · have ha := h a (List.mem_cons_self a l)
      subst hl
      simp [sumProb]
      omega
    · have h1 := ih hl (fun e he => h e (List.mem_cons_of_mem a he))
      have ha := h a (List.mem_cons_self a l)
      omega

theorem voseLoop_spec (avg B n : Nat) (havg : 1 ≤ avg) (hB : avg ≤ B)
    (hwrap : B + avg ≤ 2 ^ 32) :
    ∀ (fuel : Nat) (sm lg t : List Ipiece),
      sm.length + lg.length ≤ fuel →
      (∀ e ∈ sm, 1 ≤ e.prob ∧ e.prob < avg ∧ e.prob ≤ B ∧ e.aliasIdx < n) →
      (∀ e ∈ lg, avg ≤ e.prob ∧ e.prob ≤ B ∧ e.aliasIdx < n) →
      sumProb sm + sumProb lg = avg * (sm.length + lg.length) →
      t.length = n →
      (∀ e ∈ t, e.prob + 1 ≤ avg ∧ e.aliasIdx < n) →
      ∃ lgF tF, voseLoop avg fuel sm lg t = ([], lgF, tF) ∧
        (1 ≤ sm.length + lg.length → lgF ≠ []) ∧
        (∀ e ∈ lgF, avg ≤ e.prob ∧ e.prob ≤ B ∧ e.aliasIdx < n) ∧
        tF.length = n ∧
        (∀ e ∈ tF, e.prob + 1 ≤ avg ∧ e.aliasIdx < n) := by
  intro fuel
  induction fuel with
  | zero =>
    intro sm lg t hfuel hsm hlg hsum ht hte
    have hsm0 : sm = [] := List.length_eq_zero.mp (by omega)
    have hlg0 : lg = [] := List.length_eq_zero.mp (by omega)
    subst hsm0; subst hlg0
    exact ⟨[], t, rfl, by simp, by simp, ht, hte⟩
  | succ fuel ih =>
    intro sm lg t hfuel hsm hlg hsum ht hte
    match sm, lg with
    | [], lg =>
      refine ⟨lg, t, rfl, ?_, hlg, ht, hte⟩
      intro h1 h0
      subst h0
      simp at h1
    | a :: sm', [] =>
      exfalso
      have hlt := sumProb_lt_of_all_lt avg (a :: sm') (by simp)
        (fun e he => (hsm e he).2.1)
      simp only [sumProb, List.map_nil, List.sum_nil, List.length_nil,
        Nat.add_zero] at hsum
      rw [sumProb] at hlt
      omega
    | a :: sm', g :: lg' =>
      have ha := hsm a (List.mem_cons_self a sm')
      have hg := hlg g (List.mem_cons_self g lg')
      rw [voseLoop]
      have hgp : (g.prob + a.prob + (2 ^ 32 - avg)) % 2 ^ 32 = g.prob + a.prob - avg := by
        omega
      have hset : (a.prob + 2 ^ 32 - 1) % 2 ^ 32 = a.prob - 1 := by omega
      rw [hgp, hset]
      set t' := t.set a.aliasIdx ⟨a.prob - 1, g.aliasIdx⟩ with ht'
      have ht'len : t'.length = n := by rw [ht', List.length_set]; exact ht
      have ht'ent : ∀ e ∈ t', e.prob + 1 ≤ avg ∧ e.aliasIdx < n := by
        intro e he
        rcases List.mem_or_eq_of_mem_set he with h | h
        · exact hte e h
        · subst h
          refine ⟨show a.prob - 1 + 1 ≤ avg by omega, show g.aliasIdx < n by omega⟩
      have hsm' : ∀ e ∈ sm', 1 ≤ e.prob ∧ e.prob < avg ∧ e.prob ≤ B ∧ e.aliasIdx < n :=
        fun e he => hsm e (List.mem_cons_of_mem a he)
      have hlg' : ∀ e ∈ lg', avg ≤ e.prob ∧ e.prob ≤ B ∧ e.aliasIdx < n :=
        fun e he => hlg e (List.mem_cons_of_mem g he)
      have hgpiece : 1 ≤ g.prob + a.prob - avg ∧ g.prob + a.prob - avg ≤ B := by omega
      by_cases hlt : g.prob + a.prob - avg < avg
      · rw [if_pos hlt]
        have hrec := ih (⟨g.prob + a.prob - avg, g.aliasIdx⟩ :: sm') lg' t' ?_ ?_ hlg' ?_ ht'len ht'ent
        · obtain ⟨lgF, tF, heq, hne, hlgF, htF, htFe⟩ := hrec
          refine ⟨lgF, tF, heq, fun _ => hne (by simp; omega), hlgF, htF, htFe⟩
        · simp only [List.length_cons] at hfuel ⊢; omega
        · intro e he
          rcases List.mem_cons.mp he with h | h
          · subst h
            exact ⟨show 1 ≤ g.prob + a.prob - avg from hgpiece.1, hlt,
              show g.prob + a.prob - avg ≤ B from hgpiece.2, show g.aliasIdx < n by omega⟩
          · exact hsm' e h
        · simp only [sumProb_cons, List.length_cons] at hsum ⊢
          have hm : avg * (sm'.length + 1 + (lg'.length + 1))
              = avg * (sm'.length + 1 + lg'.length) + avg := by ring
          omega
      · rw [if_neg hlt]
        have hrec := ih sm' (⟨g.prob + a.prob - avg, g.aliasIdx⟩ :: lg') t' ?_ hsm' ?_ ?_ ht'len ht'ent
        · obtain ⟨lgF, tF, heq, hne, hlgF, htF, htFe⟩ := hrec
          refine ⟨lgF, tF, heq, fun _ => hne (by simp; omega), hlgF, htF, htFe⟩
        · simp only [List.length_cons] at hfuel ⊢; omega
        · intro e he
          rcases List.mem_cons.mp he with h | h
          · subst h
            exact ⟨show avg ≤ g.prob + a.prob - avg by omega,
              show g.prob + a.prob - avg ≤ B from hgpiece.2, show g.aliasIdx < n by omega⟩
          · exact hlg' e h
        · simp only [sumProb_cons, List.length_cons] at hsum ⊢
          have hm : avg * (sm'.length + 1 + (lg'.length + 1))
              = avg * (sm'.length + (lg'.length + 1)) + avg := by ring
          omega

theorem clearLarge_spec (avg n : Nat) (havg : 1 ≤ avg) (h32 : avg ≤ 2 ^ 32) :
    ∀ (lg t : List Ipiece), (∀ e ∈ lg, e.aliasIdx < n) → t.length = n →
      (∀ e ∈ t, e.prob + 1 ≤ avg ∧ e.aliasIdx < n) →
      (clearLarge avg lg t).length = n ∧
      (∀ e ∈ clearLarge avg lg t, e.prob + 1 ≤ avg ∧ e.aliasIdx < n) ∧
      (lg ≠ [] → ∃ e ∈ clearLarge avg lg t, e.prob = avg - 1) := by
  intro lg
  induction lg with
  | nil =>
    intro t hlg ht hte
    exact ⟨ht, hte, fun h => absurd rfl h⟩
  | cons g lg ih =>
    intro t hlg ht hte
    have hgn : g.aliasIdx < n := hlg g (List.mem_cons_self g lg)
    obtain ⟨ihlen, ihent, _⟩ := ih t (fun e he => hlg e (List.mem_cons_of_mem g he)) ht hte
    have hstep : clearLarge avg (g :: lg) t
        = (clearLarge avg lg t).set g.aliasIdx
            ⟨(avg + 2 ^ 32 - 1) % 2 ^ 32,
              ((clearLarge avg lg t).getD g.aliasIdx ⟨0, 0⟩).aliasIdx⟩ := by
      rw [clearLarge, clearLarge, List.foldr_cons]
    have hmod : (avg + 2 ^ 32 - 1) % 2 ^ 32 = avg - 1 := by omega
    have hidx : g.aliasIdx < (clearLarge avg lg t).length := by omega
    have hold : (clearLarge avg lg t).getD g.aliasIdx ⟨0, 0⟩ ∈ clearLarge avg lg t := by
      rw [List.getD_eq_getElem _ _ hidx]
      exact List.getElem_mem hidx
    have holdn : ((clearLarge avg lg t).getD g.aliasIdx ⟨0, 0⟩).aliasIdx < n :=
      (ihent _ hold).2
    refine ⟨?_, ?_, ?_⟩
    · rw [hstep, List.length_set]; exact ihlen
    · intro e he
      rw [hstep] at he
      rcases List.mem_or_eq_of_mem_set he with h | h
      · exact ihent e h
      · subst h
        exact ⟨show (avg + 2 ^ 32 - 1) % 2 ^ 32 + 1 ≤ avg by omega, holdn⟩
    · intro _
      have hidx2 : g.aliasIdx < ((clearLarge avg lg t).set g.aliasIdx
          ⟨(avg + 2 ^ 32 - 1) % 2 ^ 32,
            ((clearLarge avg lg t).getD g.aliasIdx ⟨0, 0⟩).aliasIdx⟩).length := by
        rw [List.length_set]; omega
      refine ⟨((clearLarge avg lg t).set g.aliasIdx
          ⟨(avg + 2 ^ 32 - 1) % 2 ^ 32,
            ((clearLarge avg lg t).getD g.aliasIdx ⟨0, 0⟩).aliasIdx⟩)[g.aliasIdx], ?_, ?_⟩
      · rw [hstep]
        exact List.getElem_mem hidx2
      · rw [List.getElem_set_self hidx2]
        exact hmod

/-- Exact total weight of an integer weight vector (the `uint64` accumulation
of alias.go lines 174-180, which cannot wrap for `int32` weights). -/
def totalOf (w : List Int) : Nat := (w.map Int.toNat).sum

/-- The floor average `total / n` computed by `NewInt` before padding. -/
def avgOf (w : List Int) : Nat := totalOf w / w.length

/-- Whether `NewInt` pads: the floor average times the count falls short of
the total. -/
def needsPad (w : List Int) : Prop := avgOf w * w.length < totalOf w

instance (w : List Int) : Decidable (needsPad w) := by unfold needsPad; infer_instance

/-- Final unit (`avgP`) of the table `NewInt` builds. -/
def finalAvg (w : List Int) : Nat := if needsPad w then avgOf w + 1 else avgOf w

/-- Final slot count of the table `NewInt` builds. -/
def finalN (w : List Int) : Nat := if needsPad w then w.length + 1 else w.length

/-- Valid input for `NewInt`: nonempty, count in the `uint32` index range,
every weight positive (and in the `int32` range, as the Go type imposes). -/
def ValidWeights (w : List Int) : Prop :=
  1 ≤ w.length ∧ w.length < 2 ^ 32 ∧ ∀ x ∈ w, 0 < x ∧ x < 2 ^ 31

/-- Inputs for which the builder's `uint32` arithmetic provably never wraps:
count plus floor average below `2^31`. -/
def SmallInput (w : List Int) : Prop := w.length + avgOf w < 2 ^ 31

theorem sum_map_toNat_ge_length (w : List Int) (h : ∀ x ∈ w, 0 < x) :
    w.length ≤ (w.map Int.toNat).sum := by
  induction w with
  | nil => simp
  | cons x w ih =>
    have hx := h x (List.mem_cons_self x w)
    have := ih (fun y hy => h y (List.mem_cons_of_mem x hy))
    simp only [List.map_cons, List.sum_cons, List.length_cons]
    omega

theorem u32ofInt_eq_toNat (x : Int) (h0 : 0 ≤ x) (h32 : x < 2 ^ 32) :
    u32ofInt x = x.toNat := by
  unfold u32ofInt
  omega

theorem int32ofU64_small (x : Nat) (h : x < 2 ^ 31) : int32ofU64 x = (x : Int) := by
  have hc : x % 2 ^ 32 < 2 ^ 31 := by omega
  rw [int32ofU64, if_pos hc]
  omega

theorem pipeline_spec (avg' n' : Nat) (w' : List Int)
    (h1 : 1 ≤ avg') (h2 : avg' ≤ 2 ^ 31 - 1) (h3 : 1 ≤ n')
    (hw' : ∀ p ∈ w', 1 ≤ u32ofInt p ∧ u32ofInt p ≤ 2 ^ 31 - 1)
    (hlen : w'.length = n')
    (hsum : (w'.map u32ofInt).sum = avg' * n') :
    ∃ lgF tF,
      (partitionPieces avg' w' 0 [] []).1.length
          + (partitionPieces avg' w' 0 [] []).2.length = n' ∧
      voseLoop avg' n' (partitionPieces avg' w' 0 [] []).1
          (partitionPieces avg' w' 0 [] []).2 (List.replicate n' ⟨0, 0⟩)
        = ([], lgF, tF) ∧
      (clearLarge avg' lgF tF).length = n' ∧
      (∀ e ∈ clearLarge avg' lgF tF, e.prob + 1 ≤ avg' ∧ e.aliasIdx < n') ∧
      (∃ e ∈ clearLarge avg' lgF tF, e.prob = avg' - 1) := by
  obtain ⟨hplen, hpsum⟩ := partitionPieces_len_sum avg' w' 0 [] []
  simp only [List.length_nil, Nat.add_zero, sumProb, List.map_nil, List.sum_nil] at hplen hpsum
  rw [hlen] at hplen
  obtain ⟨hinvS, hinvL⟩ := partitionPieces_inv avg' 1 (2 ^ 31 - 1) n' w' 0 [] []
    hw' (by omega) (by intro e he; cases he) (by intro e he; cases he)
  have hrec := voseLoop_spec avg' (2 ^ 31 - 1) n' h1 h2 (by omega) n'
    (partitionPieces avg' w' 0 [] []).1 (partitionPieces avg' w' 0 [] []).2
    (List.replicate n' ⟨0, 0⟩) (by omega)
    (fun e he => by
      obtain ⟨⟨a, b⟩, c, d⟩ := hinvS e he
      exact ⟨a, c, b, d⟩)
    (fun e he => by
      obtain ⟨⟨a, b⟩, c, d⟩ := hinvL e he
      exact ⟨c, b, d⟩)
    (by rw [show sumProb (partitionPieces avg' w' 0 [] []).1
          + sumProb (partitionPieces avg' w' 0 [] []).2
          = (w'.map u32ofInt).sum from hpsum, hsum, hplen])
    (by rw [List.length_replicate])
    (by
      intro e he
      rw [List.eq_of_mem_replicate he]
      exact ⟨show 0 + 1 ≤ avg' by omega, show 0 < n' by omega⟩)
  obtain ⟨lgF, tF, heq, hne, hlgF, htF, htFe⟩ := hrec
  have hlgFne : lgF ≠ [] := hne (by omega)
  obtain ⟨hclen, hcent, hcex⟩ := clearLarge_spec avg' n' h1 (by omega) lgF tF
    (fun e he => (hlgF e he).2.2) htF htFe
  exact ⟨lgF, tF, hplen, heq, hclen, hcent, hcex hlgFne⟩

theorem map_u32_eq_total (w : List Int) (hw : ∀ x ∈ w, 0 < x ∧ x < 2 ^ 31) :
    (w.map u32ofInt).sum = totalOf w := by
  rw [totalOf]
  congr 1
  apply List.map_congr_left
  intro x hx
  exact u32ofInt_eq_toNat x (by have := (hw x hx).1; omega)
    (by have := (hw x hx).2; omega)

/-- The weight list `NewInt` actually feeds to the partition: the input plus
the synthetic dummy weight when padding is needed. -/
def paddedW (w : List Int) : List Int :=
  (padStep w w.length (totalOf w) (totalOf w / w.length % 2 ^ 32)).1

theorem newInt_spec (w : List Int) (hv : ValidWeights w) (hs : SmallInput w) :
    ∃ (al : AliasTable) (lgF tF : List Ipiece), newInt w = .ret (some al) none ∧
      voseLoop (finalAvg w) (finalN w)
          (partitionPieces (finalAvg w) (paddedW w) 0 [] []).1
          (partitionPieces (finalAvg w) (paddedW w) 0 [] []).2
          (List.replicate (finalN w) ⟨0, 0⟩) = ([], lgF, tF) ∧
      al.table = clearLarge (finalAvg w) lgF tF ∧
      al.table.length = finalN w ∧ al.avgP = finalAvg w ∧ al.dummy = w.length ∧
      al.maxRi = calcMaxVal (finalN w) ∧ al.maxRj = calcMaxVal (finalAvg w) ∧
      (∀ e ∈ al.table, e.prob + 1 ≤ finalAvg w ∧ e.aliasIdx < finalN w) ∧
      (∃ e ∈ al.table, e.prob = finalAvg w - 1) := by
  obtain ⟨hn1, hn32, hw⟩ := hv
  have htot : w.length ≤ totalOf w :=
    sum_map_toNat_ge_length w (fun x hx => (hw x hx).1)
  have havg1 : 1 ≤ avgOf w := by
    rw [avgOf]
    exact Nat.one_le_div_iff (by omega) |>.mpr htot
  have havg31 : avgOf w < 2 ^ 31 := by
    have := hs; rw [SmallInput] at this; omega
  have hn31 : w.length < 2 ^ 31 := by
    have := hs; rw [SmallInput] at this; omega
  have hsum31 : w.length + avgOf w < 2 ^ 31 := hs
  have havgmod : totalOf w / w.length % 2 ^ 32 = avgOf w := by
    have : totalOf w / w.length = avgOf w := rfl
    omega
  have hany : w.any (· ≤ 0) = false := by
    rw [List.any_eq_false]
    intro x hx
    simpa using (hw x hx).1
  have hmodtot : w.length * avgOf w + totalOf w % w.length = totalOf w := by
    rw [avgOf]
    exact Nat.div_add_mod _ _
  have hmodlt : totalOf w % w.length < w.length := Nat.mod_lt _ (by omega)
  have hcomm : avgOf w * w.length = w.length * avgOf w := Nat.mul_comm _ _
  have hwsum := map_u32_eq_total w hw
  by_cases hp : needsPad w
  · -- padded case
    rw [needsPad] at hp
    have hexp : (avgOf w + 1) * (w.length + 1)
        = avgOf w * w.length + avgOf w + w.length + 1 := by ring
    set d := (avgOf w + 1) * (w.length + 1) - totalOf w with hd
    have hd1 : 1 ≤ d := by omega
    have hd31 : d < 2 ^ 31 := by omega
    have hfa : finalAvg w = avgOf w + 1 := by
      rw [finalAvg, if_pos]; rwa [needsPad]
    have hfn : finalN w = w.length + 1 := by
      rw [finalN, if_pos]; rwa [needsPad]
    have hpadEq : padStep w w.length (totalOf w) (totalOf w / w.length % 2 ^ 32)
        = (w ++ [(d : Int)], avgOf w + 1, w.length + 1) := by
      rw [havgmod, padStep, if_pos hp, int32ofU64_small d hd31]
    have hw' : ∀ p ∈ w ++ [(d : Int)], 1 ≤ u32ofInt p ∧ u32ofInt p ≤ 2 ^ 31 - 1 := by
      intro p hp'
      rcases List.mem_append.mp hp' with h | h
      · obtain ⟨a, b⟩ := hw p h
        rw [u32ofInt_eq_toNat p (by omega) (by omega)]
        omega
      · rw [List.mem_singleton.mp h]
        rw [u32ofInt_eq_toNat _ (by omega) (by exact_mod_cast by omega)]
        simp
        omega
    have hsum' : ((w ++ [(d : Int)]).map u32ofInt).sum = (avgOf w + 1) * (w.length + 1) := by
      rw [List.map_append, List.sum_append, hwsum]
      simp only [List.map_cons, List.map_nil, List.sum_cons, List.sum_nil]
      rw [u32ofInt_eq_toNat _ (by omega) (by exact_mod_cast by omega)]
      simp
      omega
    obtain ⟨lgF, tF, hplen, heq, hclen, hcent, hcex⟩ :=
      pipeline_spec (avgOf w + 1) (w.length + 1) (w ++ [(d : Int)])
        (by omega) (by omega) (by omega) hw' (by simp) hsum'
    have hpw : paddedW w = w ++ [(d : Int)] := by
      rw [paddedW, hpadEq]
    refine ⟨⟨clearLarge (avgOf w + 1) lgF tF, calcMaxVal (w.length + 1),
      calcMaxVal (avgOf w + 1), avgOf w + 1, w.length⟩, lgF, tF, ?_, ?_⟩
    · rw [newInt]
      rw [if_neg (by omega), if_neg (by push_neg; omega)]
      rw [hany]
      rw [if_neg (by simp)]
      rw [show ((w.map Int.toNat).sum : Nat) = totalOf w from rfl]
      simp only [hpadEq]
      rw [if_neg (by omega)]
      simp only [heq]
      rw [if_neg (by simp)]
      have hn'mod : (w.length + 1) % 2 ^ 32 = w.length + 1 := by omega
      have ha'mod : (avgOf w + 1) % 2 ^ 32 = avgOf w + 1 := by omega
      have hcm1 : calcMax (w.length + 1) = some (calcMaxVal (w.length + 1)) :=
        calcMax_eq_val _ (by omega)
      have hcm2 : calcMax (avgOf w + 1) = some (calcMaxVal (avgOf w + 1)) :=
        calcMax_eq_val _ (by omega)
      simp only [hn'mod, ha'mod, hcm1, hcm2]
      have hchk : checkAvgP ⟨clearLarge (avgOf w + 1) lgF tF, calcMaxVal (w.length + 1),
          calcMaxVal (avgOf w + 1), avgOf w + 1, w.length⟩ = true := by
        rw [checkAvgP, List.any_eq_true]
        obtain ⟨e, he, hpe⟩ := hcex
        refine ⟨e, he, ?_⟩
        simp only
        rw [show (avgOf w + 1 + 2 ^ 32 - 1) % 2 ^ 32 = avgOf w + 1 - 1 by omega]
        exact beq_iff_eq.mpr hpe
      rw [if_pos hchk]
    · rw [hfa, hfn, hpw]
      exact ⟨heq, rfl, hclen, rfl, rfl, rfl, rfl, hcent, hcex⟩
  · -- even case
    rw [needsPad] at hp
    have hteq : totalOf w = avgOf w * w.length := by omega
    have hfa : finalAvg w = avgOf w := by
      rw [finalAvg, if_neg]; rwa [needsPad]
    have hfn : finalN w = w.length := by
      rw [finalN, if_neg]; rwa [needsPad]
    have hpadEq : padStep w w.length (totalOf w) (totalOf w / w.length % 2 ^ 32)
        = (w, avgOf w, w.length) := by
      rw [havgmod, padStep, if_neg hp]
    have hw' : ∀ p ∈ w, 1 ≤ u32ofInt p ∧ u32ofInt p ≤ 2 ^ 31 - 1 := by
      intro p hp'
      obtain ⟨a, b⟩ := hw p hp'
      rw [u32ofInt_eq_toNat p (by omega) (by omega)]
      omega
    have hsum' : (w.map u32ofInt).sum = avgOf w * w.length := by
      rw [hwsum, hteq]
    obtain ⟨lgF, tF, hplen, heq, hclen, hcent, hcex⟩ :=
      pipeline_spec (avgOf w) w.length w
        (by omega) (by omega) (by omega) hw' rfl hsum'
    have hpw : paddedW w = w := by
      rw [paddedW, hpadEq]
    refine ⟨⟨clearLarge (avgOf w) lgF tF, calcMaxVal w.length,
      calcMaxVal (avgOf w), avgOf w, w.length⟩, lgF, tF, ?_, ?_⟩
    · rw [newInt]
      rw [if_neg (by omega), if_neg (by push_neg; omega)]
      rw [hany]
      rw [if_neg (by simp)]
      rw [show ((w.map Int.toNat).sum : Nat) = totalOf w from rfl]
      simp only [hpadEq]
      rw [if_neg (by omega)]
      simp only [heq]
      rw [if_neg (by simp)]
      have hn'mod : w.length % 2 ^ 32 = w.length := by omega
      have ha'mod : avgOf w % 2 ^ 32 = avgOf w := by omega
      have hcm1 : calcMax w.length = some (calcMaxVal w.length) :=
        calcMax_eq_val _ (by omega)
      have hcm2 : calcMax (avgOf w) = some (calcMaxVal (avgOf w)) :=
        calcMax_eq_val _ (by omega)
      simp only [hn'mod, ha'mod, hcm1, hcm2]
      have hchk : checkAvgP ⟨clearLarge (avgOf w) lgF tF, calcMaxVal w.length,
          calcMaxVal (avgOf w), avgOf w, w.length⟩ = true := by
        rw [checkAvgP, List.any_eq_true]
        obtain ⟨e, he, hpe⟩ := hcex
        refine ⟨e, he, ?_⟩
        simp only
        rw [show (avgOf w + 2 ^ 32 - 1) % 2 ^ 32 = avgOf w - 1 by omega]
        exact beq_iff_eq.mpr hpe
      rw [if_pos hchk]
    · rw [hfa, hfn, hpw]
      exact ⟨heq, rfl, hclen, rfl, rfl, rfl, rfl, hcent, hcex⟩

theorem final_bounds (w : List Int) (hv : ValidWeights w) (hs : SmallInput w) :
    1 ≤ finalAvg w ∧ finalAvg w ≤ 2 ^ 31 ∧ 1 ≤ finalN w ∧ finalN w < 2 ^ 32 ∧
    w.length ≤ finalN w ∧ finalN w ≤ w.length + 1 ∧
    (¬ needsPad w → finalN w = w.length) ∧ (needsPad w → finalN w = w.length + 1) := by
  obtain ⟨hn1, hn32, hw⟩ := hv
  have htot : w.length ≤ totalOf w :=
    sum_map_toNat_ge_length w (fun x hx => (hw x hx).1)
  have havg1 : 1 ≤ avgOf w := by
    rw [avgOf]
    exact Nat.one_le_div_iff (by omega) |>.mpr htot
  have havg31 : avgOf w < 2 ^ 31 := by
    have := hs; rw [SmallInput] at this; omega
  have hn31 : w.length < 2 ^ 31 := by
    have := hs; rw [SmallInput] at this; omega
  by_cases hp : needsPad w
  · rw [finalAvg, finalN, if_pos hp, if_pos hp]
    refine ⟨by omega, by omega, by omega, by omega, by omega, by omega, ?_, fun _ => rfl⟩
    intro h; exact absurd hp h
  · rw [finalAvg, finalN, if_neg hp, if_neg hp]
    refine ⟨by omega, by omega, by omega, by omega, by omega, by omega, fun _ => rfl, ?_⟩
    intro h; exact absurd h hp

theorem gen1_val (al : AliasTable) (r v : Nat)
    (hM1 : 1 ≤ al.table.length) (hM32 : al.table.length < 2 ^ 32)
    (hap : 1 ≤ al.avgP)
    (hal : ∀ e ∈ al.table, e.aliasIdx < al.table.length)
    (hgen : gen1 al r = .val v) : v < al.table.length ∧ v ≠ al.dummy := by
  rw [gen1] at hgen
  by_cases h1 : al.maxRi < r % 2 ^ 31 ∨ al.maxRj < r / 2 ^ 31 % 2 ^ 31
  · rw [if_pos h1] at hgen; cases hgen
  rw [if_neg h1] at hgen
  have hMmod : al.table.length % 2 ^ 32 = al.table.length := Nat.mod_eq_of_lt hM32
  rw [hMmod, if_neg (by omega)] at hgen
  rw [if_neg (by omega)] at hgen
  simp only [] at hgen
  set w0 := r % 2 ^ 31 % al.table.length with hw0
  have hw0lt : w0 < al.table.length := Nat.mod_lt _ (by omega)
  set e := al.table.getD w0 ⟨0, 0⟩ with he
  have hemem : e ∈ al.table := by
    rw [he, List.getD_eq_getElem _ _ hw0lt]
    exact List.getElem_mem hw0lt
  have healias : e.aliasIdx < al.table.length := hal e hemem
  by_cases h2 : e.prob < r / 2 ^ 31 % 2 ^ 31 % al.avgP
  · rw [if_pos h2] at hgen
    by_cases h3 : e.aliasIdx = al.dummy
    · rw [if_pos h3] at hgen; cases hgen
    · rw [if_neg h3] at hgen
      injection hgen with h4
      subst h4
      exact ⟨healias, h3⟩
  · rw [if_neg h2] at hgen
    by_cases h3 : w0 = al.dummy
    · rw [if_pos h3] at hgen; cases hgen
    · rw [if_neg h3] at hgen
      injection hgen with h4
      subst h4
      exact ⟨hw0lt, h3⟩

instance (w : List Int) : Decidable (ValidWeights w) := by
  unfold ValidWeights; infer_instance

instance (w : List Int) : Decidable (SmallInput w) := by
  unfold SmallInput; infer_instance

/-- Table built by `NewInt([2,3])`: padded with dummy weight 4, unit 3. -/
def alTwoThree : AliasTable :=
  ⟨[⟨1, 2⟩, ⟨2, 0⟩, ⟨2, 0⟩], 2 ^ 31 - 3, 2 ^ 31 - 3, 3, 2⟩

/-- Table built by `NewInt([1,1])`: no padding, unit 1, both thresholds 0. -/
def alOneOne : AliasTable := ⟨[⟨0, 0⟩, ⟨0, 0⟩], 2 ^ 31 - 1, 2 ^ 31 - 1, 1, 2⟩

/-- C3 counterexample: `NewInt([1,1])` returns (without any panic) a table in
which BOTH slots have threshold `unit - 1 = 0`, so "exactly one slot has
threshold `unit - 1`" is false, and the end-of-construction check accepts
it (it only demands at least one such slot). -/
theorem C3_counterexample :
    newInt [1, 1] = .ret (some alOneOne) none ∧
    (alOneOne.table.countP fun e => e.prob == alOneOne.avgP - 1) = 2 ∧
    checkAvgP alOneOne = true := by
  refine ⟨by decide, by decide, by decide⟩

theorem calcMaxVal_plain (m : Nat) (h1 : 1 ≤ m) (h31 : m ≤ 2 ^ 31) :
    calcMaxVal m = 2 ^ 31 - 1 - 2 ^ 31 % m := by
  have hr : 2 ^ 31 % m < m := Nat.mod_lt _ (by omega)
  rw [calcMaxVal]
  omega

theorem filter_mod_card (m k : Nat) (hk : k < m) :
    ∀ q, ((Finset.range (q * m)).filter (fun v => v % m = k)).card = q := by
  intro q
  induction q with
  | zero => simp
  | succ q ih =>
    have hm : 1 ≤ m := by omega
    have hsplit : Finset.range ((q + 1) * m)
        = Finset.range (q * m) ∪ Finset.Ico (q * m) (q * m + m) := by
      simp only [Finset.range_eq_Ico]
      rw [Finset.Ico_union_Ico_eq_Ico (by omega) (by omega)]
      congr 1
      ring
    have hdisj : Disjoint (Finset.range (q * m)) (Finset.Ico (q * m) (q * m + m)) := by
      rw [Finset.range_eq_Ico]
      exact Finset.Ico_disjoint_Ico_consecutive 0 (q * m) (q * m + m)
    rw [hsplit, Finset.filter_union,
      Finset.card_union_of_disjoint (Finset.disjoint_filter_filter hdisj), ih]
    have hone : (Finset.Ico (q * m) (q * m + m)).filter (fun v => v % m = k)
        = {q * m + k} := by
      ext x
      simp only [Finset.mem_filter, Finset.mem_Ico, Finset.mem_singleton]
      constructor
      · rintro ⟨⟨hlo, hhi⟩, hmod⟩
        have hqm : q * m = m * q := Nat.mul_comm q m
        have hx : x = q * m + (x - q * m) := by omega
        rw [hx, Nat.mul_comm q m, Nat.mul_add_mod] at hmod
        have hlt' : x - m * q < m := by omega
        rw [Nat.mod_eq_of_lt hlt'] at hmod
        omega
      · rintro rfl
        refine ⟨⟨by omega, by omega⟩, ?_⟩
        rw [Nat.mul_comm q m, Nat.mul_add_mod, Nat.mod_eq_of_lt hk]
    rw [hone, Finset.card_singleton]

/-- Table built by `NewInt([1,1,1])`: three slots, unit 1. -/
def alOnesThree : AliasTable :=
  ⟨[⟨0, 0⟩, ⟨0, 0⟩, ⟨0, 0⟩], 2 ^ 31 - 3, 2 ^ 31 - 1, 1, 3⟩

/-- C6 counterexample: for the table `NewInt([1,1,1])` builds (M = 3 slots),
the stored slot rejection bound is `2^31 - 3 = 2^31 - 1 - (2^31 mod 3)`,
which differs from the claim's formula
`maxUnbiasedValue - (maxUnbiasedValue mod M)` with
`maxUnbiasedValue = 2^31 - 1`, namely `2^31 - 2`; the claim's formula would
accept `2^31 - 1` values, which is not a multiple of 3. -/
theorem C6_counterexample :
    newInt [1, 1, 1] = .ret (some alOnesThree) none ∧
    alOnesThree.maxRi ≠ 2 ^ 31 - 1 - (2 ^ 31 - 1) % alOnesThree.table.length ∧
    (2 ^ 31 - 1 - (2 ^ 31 - 1) % alOnesThree.table.length + 1)
        % alOnesThree.table.length ≠ 0 := by
  refine ⟨by decide, by decide, by decide⟩

/-- A nontrivial receiver used to exhibit decoder mutation. -/
def alBefore : AliasTable := ⟨[⟨5, 0⟩], 7, 8, 6, 1⟩

/-- A 16-byte buffer whose first slot record is valid (threshold 3, alias 0)
and whose second has threshold `2^31`, which the decoder rejects. -/
def badSlotBuf : List Nat :=
  [3, 0, 0, 0, 0, 0, 0, 0, 0, 0, 0, 128, 0, 0, 0, 0]

/-- C4 counterexample: on a slot-validation failure `UnmarshalBinary` reports
the error but has already replaced the receiver's table with the freshly
allocated, partially populated one (here: slot 0 parsed from the buffer,
slot 1 still zeroed), so the receiver is NOT left unchanged. -/
theorem C4_counterexample :
    unmarshalBinary alBefore badSlotBuf
        = .ret (some "bad data: probability out of range")
            ⟨[⟨3, 0⟩, ⟨0, 0⟩], 7, 8, 6, 1⟩ ∧
    (⟨[⟨3, 0⟩, ⟨0, 0⟩], 7, 8, 6, 1⟩ : AliasTable) ≠ alBefore := by
  refine ⟨by decide, by decide⟩

/-- C4 amended: every malformed input is reported as an error; the two length
checks return with the receiver untouched, but a slot-validation failure is
reported only after the receiver's table has been reallocated, leaving it
partially populated. -/
theorem C4_error_reporting (al : AliasTable) (p : List Nat) :
    (p.length % 4 ≠ 0 → unmarshalBinary al p = .ret (some "bad data length") al) ∧
    (p.length % 4 = 0 → 2 ^ 32 ≤ p.length / 8 →
      unmarshalBinary al p = .ret (some "data too large") al) ∧
    (∀ e t, p.length % 4 = 0 → p.length / 8 < 2 ^ 32 →
      parseSlots (p.length / 8) (p.length / 8) p = (some e, t) →
      unmarshalBinary al p = .ret (some e) { al with table := t }) := by
  refine ⟨?_, ?_, ?_⟩
  · intro h
    rw [unmarshalBinary, if_pos h]
  · intro h4 hbig
    rw [unmarshalBinary, if_neg (by omega), if_pos (by omega)]
  · intro e t h4 hsz hparse
    rw [unmarshalBinary, if_neg (by omega), if_neg (by push_neg; omega)]
    simp only [hparse]

theorem C4_error_reporting_witness :
    unmarshalBinary alBefore [1, 2, 3] = .ret (some "bad data length") alBefore :=
  (C4_error_reporting alBefore [1, 2, 3]).1 (by decide)

/-- Threshold of the `i`-th slot record of an encoded buffer. -/
def slotProb (p : List Nat) (i : Nat) : Nat := getUint32 (p.drop (8 * i))

/-- Alias of the `i`-th slot record of an encoded buffer. -/
def slotAlias (p : List Nat) (i : Nat) : Nat := getUint32 ((p.drop (8 * i)).drop 4)

theorem parseSlots_success (total : Nat) :
    ∀ (m : Nat) (p : List Nat),
      (∀ i < m, slotProb p i < 2 ^ 31 ∧ slotAlias p i < total) →
      ∃ t, parseSlots total m p = (none, t) ∧ t.length = m ∧
        ∀ i < m, t.getD i ⟨0, 0⟩ = ⟨slotProb p i, slotAlias p i⟩ := by
  intro m
  induction m with
  | zero => intro p _; exact ⟨[], rfl, rfl, fun i hi => absurd hi (by omega)⟩
  | succ m ih =>
    intro p hp
    have h0 := hp 0 (by omega)
    rw [slotProb, slotAlias] at h0
    simp only [Nat.mul_zero, List.drop_zero] at h0
    have hshift : ∀ i < m, slotProb (p.drop 8) i < 2 ^ 31 ∧ slotAlias (p.drop 8) i < total := by
      intro i hi
      have := hp (i + 1) (by omega)
      rw [slotProb, slotAlias] at this ⊢
      rw [List.drop_drop]
      rw [show 8 + 8 * i = 8 * (i + 1) by ring]
      exact this
    obtain ⟨t, hpt, hlen, hget⟩ := ih (p.drop 8) hshift
    refine ⟨⟨getUint32 p, getUint32 (p.drop 4)⟩ :: t, ?_, by simp [hlen], ?_⟩
    · rw [parseSlots]
      rw [if_neg (by omega), if_neg (by omega)]
      simp only [hpt]
    · intro i hi
      match i with
      | 0 =>
        simp only [List.getD_cons_zero]
        rw [slotProb, slotAlias]
        simp only [Nat.mul_zero, List.drop_zero]
      | j + 1 =>
        simp only [List.getD_cons_succ]
        rw [hget j (by omega), slotProb, slotAlias, slotProb, slotAlias]
        rw [List.drop_drop]
        rw [show 8 + 8 * j = 8 * (j + 1) by ring]

/-- C5 counterexample: a buffer of `2^35` zero bytes has length a multiple of
4 and all-valid slot records, yet `UnmarshalBinary` rejects it ("data too
large") because its slot count `2^32` does not fit in `uint32` — a rejection
the claim does not allow for. -/
theorem C5_counterexample :
    unmarshalBinary ⟨[], 0, 0, 0, 0⟩ (List.replicate (2 ^ 35) 0)
      = .ret (some "data too large") ⟨[], 0, 0, 0, 0⟩ ∧
    (List.replicate (2 ^ 35) (0 : Nat)).length % 4 = 0 := by
  constructor
  · rw [unmarshalBinary, List.length_replicate]
    rw [if_neg (by norm_num), if_pos (by norm_num)]
  · rw [List.length_replicate]
    norm_num

theorem foldl_max_acc_or (t : List Ipiece) :
    ∀ acc, t.foldl (fun m e => max m e.prob) acc = acc ∨
      ∃ e ∈ t, t.foldl (fun m e => max m e.prob) acc = e.prob := by
  induction t with
  | nil => intro acc; exact Or.inl rfl
  | cons x t ih =>
    intro acc
    simp only [List.foldl_cons]
    rcases ih (max acc x.prob) with h | ⟨e, he, heq⟩
    · rcases max_choice acc x.prob with hm | hm
      · exact Or.inl (h.trans hm)
      · exact Or.inr ⟨x, List.mem_cons_self x t, h.trans hm⟩
    · exact Or.inr ⟨e, List.mem_cons_of_mem x he, heq⟩

theorem foldl_max_attained (t : List Ipiece) (hne : t ≠ []) :
    ∃ e ∈ t, e.prob = t.foldl (fun m e => max m e.prob) 0 := by
  rcases foldl_max_acc_or t 0 with h | ⟨e, he, heq⟩
  · match t, hne with
    | x :: t, _ =>
      refine ⟨x, List.mem_cons_self x t, ?_⟩
      have hle := mem_le_foldl_max (x :: t) x (List.mem_cons_self x t) 0
      omega
  · exact ⟨e, he, heq.symm⟩

/-- C5 amended: `UnmarshalBinary` rejects buffers whose length is not a
multiple of 4, and also rejects buffers whose slot count `floor(length/8)`
does not fit in 32 bits ("data too large").  Otherwise, with
`M = floor(length/8) ≥ 1` and every slot record valid (threshold `< 2^31`,
alias `< M`), it succeeds and produces exactly the `M` parsed slots, a unit
`u` equal to one plus the maximum stored threshold, both rejection bounds
recomputed by `calcMax` from `M` and `u`, and a dummy index read from the
trailing four bytes when `length mod 8 ≠ 0` and equal to `M` otherwise.
(For `M = 0` the decoder divides by zero instead — see C10.) -/
theorem C5_decode_spec (al : AliasTable) (p : List Nat) :
    (p.length % 4 ≠ 0 → unmarshalBinary al p = .ret (some "bad data length") al) ∧
    (p.length % 4 = 0 → 2 ^ 32 ≤ p.length / 8 →
      unmarshalBinary al p = .ret (some "data too large") al) ∧
    (p.length % 4 = 0 → p.length / 8 < 2 ^ 32 → 1 ≤ p.length / 8 →
      (∀ i < p.length / 8, slotProb p i < 2 ^ 31 ∧ slotAlias p i < p.length / 8) →
      ∃ t u,
        unmarshalBinary al p = .ret none
          ⟨t, calcMaxVal (p.length / 8), calcMaxVal u, u,
            if p.length % 8 ≠ 0 then getUint32 (p.drop (p.length - 4))
            else p.length / 8⟩ ∧
        t.length = p.length / 8 ∧
        (∀ i < p.length / 8, t.getD i ⟨0, 0⟩ = ⟨slotProb p i, slotAlias p i⟩) ∧
        (∀ e ∈ t, e.prob + 1 ≤ u) ∧ (∃ e ∈ t, e.prob + 1 = u)) := by
  refine ⟨?_, ?_, ?_⟩
  · intro h
    rw [unmarshalBinary, if_pos h]
  · intro h4 hbig
    rw [unmarshalBinary, if_neg (by omega), if_pos (by omega)]
  · intro h4 hsz hM1 hslots
    obtain ⟨t, hpt, hlen, hget⟩ := parseSlots_success (p.length / 8) (p.length / 8) p hslots
    have hmem : ∀ e ∈ t, e.prob < 2 ^ 31 := by
      intro e he
      obtain ⟨i, hi, hei⟩ := List.mem_iff_getElem.mp he
      have : t.getD i ⟨0, 0⟩ = e := by
        rw [List.getD_eq_getElem _ _ hi, hei]
      rw [hget i (by omega)] at this
      rw [← this]
      exact (hslots i (by omega)).1
  -- the fold over parsed thresholds
    set f := t.foldl (fun m e => max m e.prob) 0 with hf
    have hfle : f ≤ 2 ^ 31 - 1 :=
      foldl_max_le t (2 ^ 31 - 1) (fun e he => by have := hmem e he; omega) 0 (by omega)
    have htne : t ≠ [] := by
      intro h
      rw [h] at hlen
      simp at hlen
      omega
    obtain ⟨e0, he0, he0p⟩ := foldl_max_attained t htne
    have hmod : (f + 1) % 2 ^ 32 = f + 1 := by omega
    refine ⟨t, f + 1, ?_, hlen, hget, ?_, ⟨e0, he0, by omega⟩⟩
    · rw [unmarshalBinary, if_neg (by omega), if_neg (by push_neg; omega)]
      simp only [hpt, ← hf, hmod]
      rw [Nat.mod_eq_of_lt hsz, calcMax_eq_val _ (by omega), calcMax_eq_val _ (by omega)]
    · intro e he
      have := mem_le_foldl_max t e he 0
      omega

theorem C5_decode_spec_witness :
    ∃ t u,
      unmarshalBinary ⟨[], 0, 0, 0, 0⟩ [3, 0, 0, 0, 0, 0, 0, 0] = .ret none
        ⟨t, calcMaxVal ([3, 0, 0, 0, 0, 0, 0, 0].length / 8), calcMaxVal u, u,
          if [3, 0, 0, 0, 0, 0, 0, 0].length % 8 ≠ 0 then
            getUint32 ([3, 0, 0, 0, 0, 0, 0, 0].drop ([3, 0, 0, 0, 0, 0, 0, 0].length - 4))
          else [3, 0, 0, 0, 0, 0, 0, 0].length / 8⟩ ∧
      t.length = [3, 0, 0, 0, 0, 0, 0, 0].length / 8 ∧
      (∀ i < [3, 0, 0, 0, 0, 0, 0, 0].length / 8,
        t.getD i ⟨0, 0⟩ = ⟨slotProb [3, 0, 0, 0, 0, 0, 0, 0] i,
          slotAlias [3, 0, 0, 0, 0, 0, 0, 0] i⟩) ∧
      (∀ e ∈ t, e.prob + 1 ≤ u) ∧ (∃ e ∈ t, e.prob + 1 = u) :=
  (C5_decode_spec ⟨[], 0, 0, 0, 0⟩ [3, 0, 0, 0, 0, 0, 0, 0]).2.2
    (by decide) (by decide) (by decide) (by decide)

/-- C10: decoding the empty buffer, or a 4-byte buffer, passes the length
check with slot count `M = 0`, and then `calcMax(0)` divides by zero: the
decoder panics, returning neither an error nor a table. -/
theorem C10_decode_div_zero :
    calcMax 0 = none ∧
    unmarshalBinary ⟨[], 0, 0, 0, 0⟩ []
      = .panicked "runtime error: integer divide by zero" ∧
    unmarshalBinary ⟨[], 0, 0, 0, 0⟩ [0, 0, 0, 0]
      = .panicked "runtime error: integer divide by zero" := by
  refine ⟨rfl, by decide, by decide⟩

/-- C8 amended: for every valid weight vector in the wrap-free range, the
pairing loop of `NewInt` fully drains the small stack; pieces may remain on
the LARGE stack, and those are not a violation — the cleanup loop finalizes
their slots with threshold `unit - 1` — and the builder returns a table
without hitting its internal-consistency panic. -/
theorem C8_small_stack_drains (w : List Int) (hv : ValidWeights w) (hs : SmallInput w) :
    ∃ lgF tF al,
      voseLoop (finalAvg w) (finalN w)
          (partitionPieces (finalAvg w) (paddedW w) 0 [] []).1
          (partitionPieces (finalAvg w) (paddedW w) 0 [] []).2
          (List.replicate (finalN w) ⟨0, 0⟩) = ([], lgF, tF) ∧
      al.table = clearLarge (finalAvg w) lgF tF ∧
      (∃ e ∈ al.table, e.prob = finalAvg w - 1) ∧
      newInt w = .ret (some al) none := by
  obtain ⟨al, lgF, tF, hret, hloop, htab, _, _, _, _, _, _, hex⟩ := newInt_spec w hv hs
  exact ⟨lgF, tF, al, hloop, htab, hex, hret⟩

theorem C8_small_stack_drains_witness :
    ∃ lgF tF al,
      voseLoop (finalAvg [2, 3]) (finalN [2, 3])
          (partitionPieces (finalAvg [2, 3]) (paddedW [2, 3]) 0 [] []).1
          (partitionPieces (finalAvg [2, 3]) (paddedW [2, 3]) 0 [] []).2
          (List.replicate (finalN [2, 3]) ⟨0, 0⟩) = ([], lgF, tF) ∧
      al.table = clearLarge (finalAvg [2, 3]) lgF tF ∧
      (∃ e ∈ al.table, e.prob = finalAvg [2, 3] - 1) ∧
      newInt [2, 3] = .ret (some al) none :=
  C8_small_stack_drains [2, 3] (by decide) (by decide)

/-- C8 counterexample: for `NewInt([1,1])` the pairing loop ends with BOTH
pieces still on the large stack — the loop drains neither stack "completely"
— yet no internal-consistency violation is raised: the leftover large pieces
are finalized by the cleanup loop and the builder returns normally. -/
theorem C8_counterexample :
    partitionPieces 1 [1, 1] 0 [] [] = ([], [⟨1, 1⟩, ⟨1, 0⟩]) ∧
    voseLoop 1 2 [] [⟨1, 1⟩, ⟨1, 0⟩] (List.replicate 2 ⟨0, 0⟩)
      = ([], [⟨1, 1⟩, ⟨1, 0⟩], List.replicate 2 ⟨0, 0⟩) ∧
    newInt [1, 1] = .ret (some alOneOne) none := by
  refine ⟨by decide, by decide, by decide⟩

theorem partitionPieces_append (avg : Nat) :
    ∀ (xs ys : List Int) (i : Nat) (sm lg : List Ipiece),
      partitionPieces avg (xs ++ ys) i sm lg
        = partitionPieces avg ys (i + xs.length)
            (partitionPieces avg xs i sm lg).1 (partitionPieces avg xs i sm lg).2 := by
  intro xs
  induction xs with
  | nil =>
    intro ys i sm lg
    simp [partitionPieces]
  | cons x xs ih =>
    intro ys i sm lg
    by_cases hc : avg ≤ u32ofInt x
    · rw [List.cons_append, partitionPieces, if_pos hc, ih]
      conv_rhs => rw [partitionPieces, if_pos hc]
      simp only [List.length_cons]
      rw [show i + 1 + xs.length = i + (xs.length + 1) from by omega]
    · rw [List.cons_append, partitionPieces, if_neg hc, ih]
      conv_rhs => rw [partitionPieces, if_neg hc]
      simp only [List.length_cons]
      rw [show i + 1 + xs.length = i + (xs.length + 1) from by omega]

theorem partitionPieces_replicate_small (k : Nat) :
    ∀ (i : Nat) (sm lg : List Ipiece),
      ∃ S : List Ipiece,
        partitionPieces 3 (List.replicate k (2 : Int)) i sm lg = (S ++ sm, lg) ∧
        S.length = k := by
  induction k with
  | zero =>
    intro i sm lg
    exact ⟨[], by simp [partitionPieces], rfl⟩
  | succ k ih =>
    intro i sm lg
    rw [List.replicate_succ, partitionPieces, if_neg (by decide)]
    obtain ⟨S, hS, hSlen⟩ := ih (i + 1) (⟨u32ofInt 2, i⟩ :: sm) lg
    refine ⟨S ++ [⟨u32ofInt 2, i⟩], ?_, by simp [hSlen]⟩
    rw [hS, List.append_assoc]
    rfl

theorem voseLoop_no_large (avg fuel : Nat) (sm t : List Ipiece) :
    voseLoop avg fuel sm [] t = (sm, [], t) := by
  cases fuel with
  | zero => rfl
  | succ f =>
    cases sm with
    | nil => rfl
    | cons a s => rfl

theorem voseLoop_step_eq (avg f : Nat) (a g : Ipiece) (sm lg t : List Ipiece) :
    voseLoop avg (f + 1) (a :: sm) (g :: lg) t
      = (if (g.prob + a.prob + (2 ^ 32 - avg)) % 2 ^ 32 < avg then
          voseLoop avg f (⟨(g.prob + a.prob + (2 ^ 32 - avg)) % 2 ^ 32, g.aliasIdx⟩ :: sm) lg
            (t.set a.aliasIdx ⟨(a.prob + 2 ^ 32 - 1) % 2 ^ 32, g.aliasIdx⟩)
        else
          voseLoop avg f sm (⟨(g.prob + a.prob + (2 ^ 32 - avg)) % 2 ^ 32, g.aliasIdx⟩ :: lg)
            (t.set a.aliasIdx ⟨(a.prob + 2 ^ 32 - 1) % 2 ^ 32, g.aliasIdx⟩)) := rfl

/-- `2^32 - 1` weights: `2^32 - 2` copies of 2 followed by one 3. -/
def bigW : List Int := List.replicate (2 ^ 32 - 2) 2 ++ [3]

theorem bigW_length : bigW.length = 2 ^ 32 - 1 := by
  rw [bigW, List.length_append, List.length_replicate]
  norm_num

theorem bigW_pos : ∀ x ∈ bigW, 0 < x := by
  intro x hx
  rcases List.mem_append.mp hx with h | h
  · rw [List.eq_of_mem_replicate h]; norm_num
  · rw [List.mem_singleton.mp h]; norm_num

theorem bigW_total : (bigW.map Int.toNat).sum = 2 ^ 33 - 1 := by
  rw [bigW, List.map_append, List.sum_append, List.map_replicate]
  rw [show Int.toNat 2 = 2 from rfl]
  rw [List.sum_replicate]
  simp only [smul_eq_mul, List.map_cons, List.map_nil, List.sum_cons, List.sum_nil]
  rw [show Int.toNat 3 = 3 from rfl]
  norm_num

/-- C9 counterexample: `bigW` has `2^32 - 1` weights — nonempty, within the
index range, all positive, so none of the error conditions hold and the
claim requires a table to be returned with no error — yet `NewInt` panics:
the padding weight `2^32 + 1` wraps to 1 as an `int32`, the exactness of the
integer arithmetic is destroyed, the large stack empties after one pairing
while the small stack still holds `2^32 - 2` pieces, and the builder hits
its internal-consistency panic instead of returning. -/
theorem C9_counterexample :
    1 ≤ bigW.length ∧ bigW.length < 2 ^ 32 ∧ (∀ x ∈ bigW, 0 < x) ∧
    newInt bigW = .panicked "alias.NewInt: internal error" := by
  refine ⟨by rw [bigW_length]; norm_num, by rw [bigW_length]; norm_num, bigW_pos, ?_⟩
  have hlen := bigW_length
  have hany : bigW.any (· ≤ 0) = false := by
    rw [List.any_eq_false]
    intro x hx
    have := bigW_pos x hx
    simpa using this
  have hpad : padStep bigW bigW.length (2 ^ 33 - 1) ((2 ^ 33 - 1) / bigW.length % 2 ^ 32)
      = (bigW ++ [(1 : Int)], 3, 2 ^ 32) := by
    rw [hlen]
    rw [show (2 ^ 33 - 1 : Nat) / (2 ^ 32 - 1) % 2 ^ 32 = 2 from by norm_num]
    rw [padStep, if_pos (by norm_num)]
    rw [show ((2 : Nat) + 1) * ((2 ^ 32 - 1) + 1) - (2 ^ 33 - 1) = 2 ^ 32 + 1 from by norm_num]
    rw [show int32ofU64 (2 ^ 32 + 1) = (1 : Int) from by norm_num [int32ofU64]]
    norm_num
  obtain ⟨S, hS, hSlen⟩ := partitionPieces_replicate_small (2 ^ 32 - 2) 0 [] []
  have hpart : partitionPieces 3 (bigW ++ [(1 : Int)]) 0 [] []
      = (⟨1, 2 ^ 32 - 1⟩ :: (S ++ []), [⟨3, 2 ^ 32 - 2⟩]) := by
    rw [bigW, List.append_assoc]
    rw [partitionPieces_append 3 (List.replicate (2 ^ 32 - 2) 2) ([3] ++ [1]) 0 [] []]
    rw [hS, List.length_replicate]
    rw [List.singleton_append, partitionPieces, if_pos (by decide)]
    rw [partitionPieces, if_neg (by decide)]
    rw [partitionPieces]
    rw [show u32ofInt 3 = 3 from by decide, show u32ofInt 1 = 1 from by decide]
    norm_num
  rw [newInt]
  rw [if_neg (by omega), if_neg (by push_neg; omega)]
  rw [hany, if_neg (by simp)]
  rw [show ((bigW.map Int.toNat).sum : Nat) = 2 ^ 33 - 1 from bigW_total]
  simp only [hpad, hpart]
  rw [if_neg (by
    simp only [List.length_cons, List.length_append, List.length_nil, hSlen]
    norm_num)]
  have hstep : voseLoop 3 (2 ^ 32) (⟨1, 2 ^ 32 - 1⟩ :: (S ++ [])) [⟨3, 2 ^ 32 - 2⟩]
      (List.replicate (2 ^ 32) ⟨0, 0⟩)
      = (⟨1, 2 ^ 32 - 2⟩ :: (S ++ []), [],
        (List.replicate (2 ^ 32) ⟨0, 0⟩).set (2 ^ 32 - 1) ⟨0, 2 ^ 32 - 2⟩) := by
    rw [show (2 ^ 32 : Nat) = (2 ^ 32 - 1) + 1 from by norm_num]
    rw [voseLoop_step_eq]
    rw [show (((⟨3, 2 ^ 32 - 2⟩ : Ipiece)).prob + ((⟨1, 2 ^ 32 - 1⟩ : Ipiece)).prob
        + (2 ^ 32 - 3)) % 2 ^ 32 = 1 from by norm_num]
    rw [if_pos (by norm_num)]
    rw [voseLoop_no_large]
    norm_num
  rw [hstep]
  rw [if_pos (by simp)]

theorem sum_map_toNat_le (w : List Int) (h : ∀ x ∈ w, x < 2 ^ 31) :
    (w.map Int.toNat).sum ≤ w.length * (2 ^ 31 - 1) := by
  induction w with
  | nil => simp
  | cons x w ih =>
    have hx := h x (List.mem_cons_self x w)
    have hr := ih (fun y hy => h y (List.mem_cons_of_mem x hy))
    simp only [List.map_cons, List.sum_cons, List.length_cons]
    have : Int.toNat x ≤ 2 ^ 31 - 1 := by omega
    rw [Nat.succ_mul]
    omega

theorem u32_int32ofU64 (x : Nat) : u32ofInt (int32ofU64 x) = x % 2 ^ 32 := by
  rw [int32ofU64, u32ofInt]
  by_cases h : x % 2 ^ 32 < 2 ^ 31
  · rw [if_pos h]
    omega
  · rw [if_neg h]
    omega

theorem calcMax_some (x y : Nat) (h : calcMax x = some y) : x ≠ 0 ∧ y = calcMaxVal x := by
  rw [calcMax] at h
  by_cases hx : x = 0
  · rw [if_pos hx] at h
    cases h
  · rw [if_neg hx] at h
    injection h with h1
    exact ⟨hx, h1.symm⟩

theorem calcMaxVal_wrap (m : Nat) (h31 : 2 ^ 31 < m) (_h32 : m < 2 ^ 32) :
    calcMaxVal m = 2 ^ 32 - 1 := by
  have hm : 2 ^ 31 % m = 2 ^ 31 := Nat.mod_eq_of_lt h31
  rw [calcMaxVal, hm]
  omega

theorem checkAvgP_exists (al : AliasTable) (h1 : 1 ≤ al.avgP) (h32 : al.avgP ≤ 2 ^ 32)
    (hc : checkAvgP al = true) : ∃ e ∈ al.table, e.prob = al.avgP - 1 := by
  rw [checkAvgP, List.any_eq_true] at hc
  obtain ⟨e, he, hpe⟩ := hc
  refine ⟨e, he, ?_⟩
  have := beq_iff_eq.mp hpe
  omega

theorem sumProb_ge_of_all_ge (c : Nat) (l : List Ipiece) (h : ∀ e ∈ l, c ≤ e.prob) :
    c * l.length ≤ sumProb l := by
  induction l with
  | nil => simp [sumProb]
  | cons a l ih =>
    have ha := h a (List.mem_cons_self a l)
    have hr := ih (fun e he => h e (List.mem_cons_of_mem a he))
    rw [sumProb_cons, List.length_cons, Nat.mul_succ]
    omega

theorem newInt_ok_checkAvgP (w : List Int) (al : AliasTable)
    (h : newInt w = .ret (some al) none) : checkAvgP al = true := by
  rw [newInt] at h
  split at h
  · exact Option.noConfusion ((BuildResult.ret.injEq _ _ _ _).mp h).1
  · split at h
    · exact Option.noConfusion ((BuildResult.ret.injEq _ _ _ _).mp h).1
    · split at h
      · exact Option.noConfusion ((BuildResult.ret.injEq _ _ _ _).mp h).1
      · simp only [] at h
        split at h
        · exact BuildResult.noConfusion h
        · split at h
          · exact BuildResult.noConfusion h
          · split at h
            · exact BuildResult.noConfusion h
            · split at h
              · exact BuildResult.noConfusion h
              · split at h
                · have := ((BuildResult.ret.injEq _ _ _ _).mp h).1
                  have hal := Option.some.inj this
                  rw [← hal]
                  assumption
                · exact BuildResult.noConfusion h

theorem voseLoop_zero (avg : Nat) (sm lg t : List Ipiece) :
    voseLoop avg 0 sm lg t = (sm, lg, t) := rfl

theorem voseLoop_no_small (avg fuel : Nat) (lg t : List Ipiece) :
    voseLoop avg fuel [] lg t = ([], lg, t) := by
  cases fuel with
  | zero => rfl
  | succ f =>
    cases lg with
    | nil => rfl
    | cons g l => rfl

theorem voseLoop_drain_spec (avg n : Nat) (havg : 1 ≤ avg) (havg32 : avg < 2 ^ 32) :
    ∀ (fuel : Nat) (sm lg t : List Ipiece) (D : Nat),
      (∀ e ∈ sm, e.prob < avg ∧ e.aliasIdx < n) →
      (∀ e ∈ lg, avg ≤ e.prob ∧ e.prob < 2 ^ 32 ∧ e.aliasIdx < n) →
      sumProb sm + sumProb lg + D = avg * (sm.length + lg.length) →
      t.length = n →
      (D = 0 → (∀ e ∈ sm, 1 ≤ e.prob) ∧ (∀ e ∈ t, e.prob + 1 ≤ avg ∧ e.aliasIdx < n)) →
      ∀ lgF tF, voseLoop avg fuel sm lg t = ([], lgF, tF) →
        (∀ e ∈ lgF, e.aliasIdx < n) ∧ tF.length = n ∧
        (∀ e ∈ tF, e.prob + 1 ≤ avg ∧ e.aliasIdx < n) := by
  intro fuel
  induction fuel with
  | zero =>
    intro sm lg t D hsm hlg hsum ht hD lgF tF heq
    rw [voseLoop_zero] at heq
    obtain ⟨h1, h2, h3⟩ : sm = [] ∧ lg = lgF ∧ t = tF :=
      ⟨congrArg Prod.fst heq, congrArg (Prod.fst ∘ Prod.snd) heq,
        congrArg (Prod.snd ∘ Prod.snd) heq⟩
    subst h1; subst h2; subst h3
    simp only [sumProb, List.map_nil, List.sum_nil, List.length_nil, Nat.zero_add] at hsum
    have hge := sumProb_ge_of_all_ge avg lg (fun e he => (hlg e he).1)
    simp only [sumProb] at hge
    have hD0 : D = 0 := by omega
    exact ⟨fun e he => (hlg e he).2.2, ht, (hD hD0).2⟩
  | succ fuel ih =>
    intro sm lg t D hsm hlg hsum ht hD lgF tF heq
    match sm, lg with
    | [], lg =>
      rw [voseLoop_no_small] at heq
      obtain ⟨h2, h3⟩ : lg = lgF ∧ t = tF :=
        ⟨congrArg (Prod.fst ∘ Prod.snd) heq, congrArg (Prod.snd ∘ Prod.snd) heq⟩
      subst h2; subst h3
      simp only [sumProb, List.map_nil, List.sum_nil, List.length_nil, Nat.zero_add] at hsum
      have hge := sumProb_ge_of_all_ge avg lg (fun e he => (hlg e he).1)
      simp only [sumProb] at hge
      have hD0 : D = 0 := by omega
      exact ⟨fun e he => (hlg e he).2.2, ht, (hD hD0).2⟩
    | a :: sm', [] =>
      rw [voseLoop_no_large] at heq
      exact absurd (congrArg Prod.fst heq) (by simp)
    | a :: sm', g :: lg' =>
      have ha := hsm a (List.mem_cons_self a sm')
      have hg := hlg g (List.mem_cons_self g lg')
      rw [voseLoop_step_eq] at heq
      have hgp : (g.prob + a.prob + (2 ^ 32 - avg)) % 2 ^ 32 = g.prob + a.prob - avg := by
        omega
      rw [hgp] at heq
      set t' := t.set a.aliasIdx ⟨(a.prob + 2 ^ 32 - 1) % 2 ^ 32, g.aliasIdx⟩ with ht'
      have ht'len : t'.length = n := by rw [ht', List.length_set]; exact ht
      have ht'good : D = 0 → ∀ e ∈ t', e.prob + 1 ≤ avg ∧ e.aliasIdx < n := by
        intro hD0 e he
        obtain ⟨hsm1, htg⟩ := hD hD0
        rcases List.mem_or_eq_of_mem_set he with h | h
        · exact htg e h
        · subst h
          have ha1 : 1 ≤ a.prob := hsm1 a (List.mem_cons_self a sm')
          exact ⟨show (a.prob + 2 ^ 32 - 1) % 2 ^ 32 + 1 ≤ avg by omega,
            show g.aliasIdx < n by omega⟩
      have hsm' : ∀ e ∈ sm', e.prob < avg ∧ e.aliasIdx < n :=
        fun e he => hsm e (List.mem_cons_of_mem a he)
      have hlg' : ∀ e ∈ lg', avg ≤ e.prob ∧ e.prob < 2 ^ 32 ∧ e.aliasIdx < n :=
        fun e he => hlg e (List.mem_cons_of_mem g he)
      by_cases hlt : g.prob + a.prob - avg < avg
      · rw [if_pos hlt] at heq
        refine ih (⟨g.prob + a.prob - avg, g.aliasIdx⟩ :: sm') lg' t' D ?_ hlg' ?_ ht'len ?_ lgF tF heq
        · intro e he
          rcases List.mem_cons.mp he with h | h
          · subst h
            exact ⟨hlt, show g.aliasIdx < n by omega⟩
          · exact hsm' e h
        · simp only [sumProb_cons, List.length_cons] at hsum ⊢
          have hm : avg * (sm'.length + 1 + (lg'.length + 1))
              = avg * (sm'.length + 1 + lg'.length) + avg := by ring
          omega
        · intro hD0
          obtain ⟨hsm1, _⟩ := hD hD0
          refine ⟨?_, ht'good hD0⟩
          intro e he
          rcases List.mem_cons.mp he with h | h
          · subst h
            have ha1 : 1 ≤ a.prob := hsm1 a (List.mem_cons_self a sm')
            show 1 ≤ g.prob + a.prob - avg
            omega
          · exact hsm1 e (List.mem_cons_of_mem a h)
      · rw [if_neg hlt] at heq
        refine ih sm' (⟨g.prob + a.prob - avg, g.aliasIdx⟩ :: lg') t' D hsm' ?_ ?_ ht'len ?_ lgF tF heq
        · intro e he
          rcases List.mem_cons.mp he with h | h
          · subst h
            exact ⟨show avg ≤ g.prob + a.prob - avg by omega,
              show g.prob + a.prob - avg < 2 ^ 32 by omega, show g.aliasIdx < n by omega⟩
          · exact hlg' e h
        · simp only [sumProb_cons, List.length_cons] at hsum ⊢
          have hm : avg * (sm'.length + 1 + (lg'.length + 1))
              = avg * (sm'.length + (lg'.length + 1)) + avg := by ring
          omega
        · intro hD0
          obtain ⟨hsm1, _⟩ := hD hD0
          exact ⟨fun e he => hsm1 e (List.mem_cons_of_mem a he), ht'good hD0⟩

theorem u32ofInt_lt (p : Int) : u32ofInt p < 2 ^ 32 := by
  rw [u32ofInt]
  omega

theorem pipeline_ok_spec (avg' n' : Nat) (w' : List Int) (D : Nat)
    (h1 : 1 ≤ avg') (h32 : avg' < 2 ^ 32) (h3 : 1 ≤ n')
    (hlen : w'.length = n')
    (hsum : (w'.map u32ofInt).sum + D = avg' * n')
    (hD0 : D = 0 → ∀ p ∈ w', 1 ≤ u32ofInt p) :
    ∀ lgF tF,
      voseLoop avg' n' (partitionPieces avg' w' 0 [] []).1
          (partitionPieces avg' w' 0 [] []).2 (List.replicate n' ⟨0, 0⟩)
        = ([], lgF, tF) →
      (clearLarge avg' lgF tF).length = n' ∧
      (∀ e ∈ clearLarge avg' lgF tF, e.prob + 1 ≤ avg' ∧ e.aliasIdx < n') := by
  intro lgF tF heq
  obtain ⟨hplen, hpsum⟩ := partitionPieces_len_sum avg' w' 0 [] []
  simp only [List.length_nil, Nat.add_zero, sumProb, List.map_nil, List.sum_nil] at hplen hpsum
  rw [hlen] at hplen
  obtain ⟨hinvS, hinvL⟩ := partitionPieces_inv avg' 0 (2 ^ 32 - 1) n' w' 0 [] []
    (fun p _ => ⟨Nat.zero_le _, by have := u32ofInt_lt p; omega⟩) (by omega)
    (by intro e he; cases he) (by intro e he; cases he)
  have hlensum : (partitionPieces avg' w' 0 [] []).1.length
      + (partitionPieces avg' w' 0 [] []).2.length = n' := by omega
  have hsmI : ∀ e ∈ (partitionPieces avg' w' 0 [] []).1, e.prob < avg' ∧ e.aliasIdx < n' :=
    fun e he => (hinvS e he).2
  have hlgI : ∀ e ∈ (partitionPieces avg' w' 0 [] []).2,
      avg' ≤ e.prob ∧ e.prob < 2 ^ 32 ∧ e.aliasIdx < n' := by
    intro e he
    obtain ⟨⟨_, b⟩, c, d⟩ := hinvL e he
    exact ⟨c, by omega, d⟩
  have hsumI : sumProb (partitionPieces avg' w' 0 [] []).1
      + sumProb (partitionPieces avg' w' 0 [] []).2 + D
      = avg' * ((partitionPieces avg' w' 0 [] []).1.length
          + (partitionPieces avg' w' 0 [] []).2.length) := by
    rw [hlensum,
      show sumProb (partitionPieces avg' w' 0 [] []).1
          + sumProb (partitionPieces avg' w' 0 [] []).2
          = (w'.map u32ofInt).sum from hpsum]
    exact hsum
  have hD' : D = 0 → (∀ e ∈ (partitionPieces avg' w' 0 [] []).1, 1 ≤ e.prob)
      ∧ (∀ e ∈ List.replicate n' (⟨0, 0⟩ : Ipiece), e.prob + 1 ≤ avg' ∧ e.aliasIdx < n') := by
    intro hDz
    obtain ⟨hinvS1, _⟩ := partitionPieces_inv avg' 1 (2 ^ 32 - 1) n' w' 0 [] []
      (fun p hp => ⟨hD0 hDz p hp, by have := u32ofInt_lt p; omega⟩) (by omega)
      (by intro e he; cases he) (by intro e he; cases he)
    refine ⟨fun e he => (hinvS1 e he).1.1, ?_⟩
    intro e he
    rw [List.eq_of_mem_replicate he]
    exact ⟨show 0 + 1 ≤ avg' by omega, show 0 < n' by omega⟩
  obtain ⟨hlgF, htF, htFe⟩ := voseLoop_drain_spec avg' n' h1 h32 n'
    (partitionPieces avg' w' 0 [] []).1 (partitionPieces avg' w' 0 [] []).2
    (List.replicate n' ⟨0, 0⟩) D hsmI hlgI hsumI (by rw [List.length_replicate]) hD' lgF tF heq
  obtain ⟨hclen, hcent, _⟩ := clearLarge_spec avg' n' h1 (by omega) lgF tF hlgF htF htFe
  exact ⟨hclen, hcent⟩

theorem newInt_ok_spec (w : List Int) (hv : ValidWeights w) (al : AliasTable)
    (h : newInt w = .ret (some al) none) :
    al.table.length = finalN w ∧ al.avgP = finalAvg w ∧ al.dummy = w.length ∧
    al.maxRi = calcMaxVal (finalN w) ∧ al.maxRj = calcMaxVal (finalAvg w) ∧
    1 ≤ finalAvg w ∧ finalAvg w ≤ 2 ^ 31 ∧ 1 ≤ finalN w ∧ finalN w < 2 ^ 32 ∧
    (∀ e ∈ al.table, e.prob + 1 ≤ finalAvg w ∧ e.aliasIdx < finalN w) ∧
    (∃ e ∈ al.table, e.prob = finalAvg w - 1) := by
  obtain ⟨hn1, hn32, hw⟩ := hv
  have htot : w.length ≤ totalOf w :=
    sum_map_toNat_ge_length w (fun x hx => (hw x hx).1)
  have htotle : totalOf w ≤ w.length * (2 ^ 31 - 1) :=
    sum_map_toNat_le w (fun x hx => (hw x hx).2)
  have havg1 : 1 ≤ avgOf w := by
    rw [avgOf]
    exact Nat.one_le_div_iff (by omega) |>.mpr htot
  have havg31 : avgOf w ≤ 2 ^ 31 - 1 := by
    have hlt : totalOf w < 2 ^ 31 * w.length := by
      have e1 : w.length * (2 ^ 31 - 1) + w.length = 2 ^ 31 * w.length := by ring
      omega
    have hdiv : totalOf w / w.length < 2 ^ 31 :=
      (Nat.div_lt_iff_lt_mul (by omega)).mpr hlt
    rw [avgOf]
    omega
  have havgmod : totalOf w / w.length % 2 ^ 32 = avgOf w := by
    have : totalOf w / w.length = avgOf w := rfl
    omega
  have hany : w.any (· ≤ 0) = false := by
    rw [List.any_eq_false]
    intro x hx
    simpa using (hw x hx).1
  have hmodtot : w.length * avgOf w + totalOf w % w.length = totalOf w := by
    rw [avgOf]
    exact Nat.div_add_mod _ _
  have hmodlt : totalOf w % w.length < w.length := Nat.mod_lt _ (by omega)
  have hcomm : avgOf w * w.length = w.length * avgOf w := Nat.mul_comm _ _
  have hwsum := map_u32_eq_total w hw
  rw [newInt] at h
  rw [if_neg (by omega), if_neg (by push_neg; omega), hany, if_neg (by simp)] at h
  rw [show ((w.map Int.toNat).sum : Nat) = totalOf w from rfl] at h
  by_cases hp : needsPad w
  · -- padded case
    have hp' : avgOf w * w.length < totalOf w := hp
    have hexp : (avgOf w + 1) * (w.length + 1)
        = avgOf w * w.length + avgOf w + w.length + 1 := by ring
    set d := (avgOf w + 1) * (w.length + 1) - totalOf w with hd
    have hd2 : avgOf w + 2 ≤ d := by omega
    have hdle : d ≤ avgOf w + w.length := by omega
    have hd33 : d < 2 ^ 33 := by omega
    have hfa : finalAvg w = avgOf w + 1 := by
      rw [finalAvg, if_pos hp]
    have hfn : finalN w = w.length + 1 := by
      rw [finalN, if_pos hp]
    have hpadEq : padStep w w.length (totalOf w) (totalOf w / w.length % 2 ^ 32)
        = (w ++ [int32ofU64 d], avgOf w + 1, w.length + 1) := by
      rw [havgmod, padStep, if_pos hp', hd]
    simp only [hpadEq] at h
    obtain ⟨hplen0, _⟩ :=
      partitionPieces_len_sum (avgOf w + 1) (w ++ [int32ofU64 d]) 0 [] []
    simp only [List.length_nil, Nat.add_zero, List.length_append,
      List.length_cons, List.length_nil] at hplen0
    have hplen : (partitionPieces (avgOf w + 1) (w ++ [int32ofU64 d]) 0 [] []).1.length
        + (partitionPieces (avgOf w + 1) (w ++ [int32ofU64 d]) 0 [] []).2.length
        = w.length + 1 := by omega
    rw [if_neg (by omega)] at h
    rcases hvv : voseLoop (avgOf w + 1) (w.length + 1)
        (partitionPieces (avgOf w + 1) (w ++ [int32ofU64 d]) 0 [] []).1
        (partitionPieces (avgOf w + 1) (w ++ [int32ofU64 d]) 0 [] []).2
        (List.replicate (w.length + 1) ⟨0, 0⟩) with ⟨smF, lgF, tF⟩
    simp only [hvv] at h
    by_cases hsmF : smF ≠ []
    · rw [if_pos hsmF] at h
      exact BuildResult.noConfusion h
    rw [if_neg hsmF] at h
    have hsm0 : smF = [] := not_ne_iff.mp hsmF
    rcases hri : calcMax ((w.length + 1) % 2 ^ 32) with _ | ri
    · simp only [hri] at h
      exact BuildResult.noConfusion h
    simp only [hri] at h
    rcases hrj : calcMax ((avgOf w + 1) % 2 ^ 32) with _ | rj
    · simp only [hrj] at h
      exact BuildResult.noConfusion h
    simp only [hrj] at h
    by_cases hchk : checkAvgP ⟨clearLarge (avgOf w + 1) lgF tF, ri, rj,
        (avgOf w + 1) % 2 ^ 32, w.length⟩ = true
    · rw [if_pos hchk] at h
      have hal : (⟨clearLarge (avgOf w + 1) lgF tF, ri, rj,
          (avgOf w + 1) % 2 ^ 32, w.length⟩ : AliasTable) = al :=
        Option.some.inj ((BuildResult.ret.injEq _ _ _ _).mp h).1
      obtain ⟨hn0, hriv⟩ := calcMax_some _ _ hri
      have hn132 : w.length + 1 < 2 ^ 32 := by omega
      have hriv' : ri = calcMaxVal (w.length + 1) := by
        rw [hriv, Nat.mod_eq_of_lt hn132]
      obtain ⟨_, hrjv⟩ := calcMax_some _ _ hrj
      have ha32 : (avgOf w + 1) % 2 ^ 32 = avgOf w + 1 := by omega
      have hrjv' : rj = calcMaxVal (avgOf w + 1) := by
        rw [hrjv, ha32]
      have hS : ((w ++ [int32ofU64 d]).map u32ofInt).sum = totalOf w + d % 2 ^ 32 := by
        rw [List.map_append, List.sum_append, hwsum]
        simp only [List.map_cons, List.map_nil, List.sum_cons, List.sum_nil]
        rw [u32_int32ofU64]
        omega
      have hsum' : ((w ++ [int32ofU64 d]).map u32ofInt).sum + (d - d % 2 ^ 32)
          = (avgOf w + 1) * (w.length + 1) := by
        rw [hS]
        omega
      have hD0' : d - d % 2 ^ 32 = 0 → ∀ p ∈ w ++ [int32ofU64 d], 1 ≤ u32ofInt p := by
        intro hDz p hpm
        rcases List.mem_append.mp hpm with hm | hm
        · obtain ⟨a, b⟩ := hw p hm
          rw [u32ofInt_eq_toNat p (by omega) (by omega)]
          omega
        · rw [List.mem_singleton.mp hm, u32_int32ofU64]
          omega
      rw [hsm0] at hvv
      obtain ⟨hclen, hcent⟩ := pipeline_ok_spec (avgOf w + 1) (w.length + 1)
        (w ++ [int32ofU64 d]) (d - d % 2 ^ 32) (by omega) (by omega) (by omega)
        (by simp) hsum' hD0' lgF tF hvv
      obtain ⟨e, hem, hep⟩ := checkAvgP_exists
        ⟨clearLarge (avgOf w + 1) lgF tF, ri, rj, (avgOf w + 1) % 2 ^ 32, w.length⟩
        (by show 1 ≤ (avgOf w + 1) % 2 ^ 32; omega)
        (by show (avgOf w + 1) % 2 ^ 32 ≤ 2 ^ 32; omega) hchk
      rw [← hal]
      refine ⟨?_, ?_, rfl, ?_, ?_, by omega, by omega, by omega, by omega, ?_, ?_⟩
      · show (clearLarge (avgOf w + 1) lgF tF).length = finalN w
        rw [hfn]; exact hclen
      · show (avgOf w + 1) % 2 ^ 32 = finalAvg w
        rw [hfa]; exact ha32
      · show ri = calcMaxVal (finalN w)
        rw [hfn]; exact hriv'
      · show rj = calcMaxVal (finalAvg w)
        rw [hfa]; exact hrjv'
      · show ∀ e ∈ clearLarge (avgOf w + 1) lgF tF,
          e.prob + 1 ≤ finalAvg w ∧ e.aliasIdx < finalN w
        rw [hfa, hfn]; exact hcent
      · show ∃ e ∈ clearLarge (avgOf w + 1) lgF tF, e.prob = finalAvg w - 1
        refine ⟨e, hem, ?_⟩
        rw [hfa]
        rw [hep]
        show (avgOf w + 1) % 2 ^ 32 - 1 = avgOf w + 1 - 1
        omega
    · rw [if_neg hchk] at h
      exact BuildResult.noConfusion h
  · -- even case
    have hp' : ¬ avgOf w * w.length < totalOf w := hp
    have hteq : totalOf w = avgOf w * w.length := by omega
    have hfa : finalAvg w = avgOf w := by
      rw [finalAvg, if_neg hp]
    have hfn : finalN w = w.length := by
      rw [finalN, if_neg hp]
    have hpadEq : padStep w w.length (totalOf w) (totalOf w / w.length % 2 ^ 32)
        = (w, avgOf w, w.length) := by
      rw [havgmod, padStep, if_neg hp']
    simp only [hpadEq] at h
    obtain ⟨hplen0, _⟩ := partitionPieces_len_sum (avgOf w) w 0 [] []
    simp only [List.length_nil, Nat.add_zero] at hplen0
    rw [if_neg (by omega)] at h
    rcases hvv : voseLoop (avgOf w) w.length
        (partitionPieces (avgOf w) w 0 [] []).1
        (partitionPieces (avgOf w) w 0 [] []).2
        (List.replicate w.length ⟨0, 0⟩) with ⟨smF, lgF, tF⟩
    simp only [hvv] at h
    by_cases hsmF : smF ≠ []
    · rw [if_pos hsmF] at h
      exact BuildResult.noConfusion h
    rw [if_neg hsmF] at h
    have hsm0 : smF = [] := not_ne_iff.mp hsmF
    rcases hri : calcMax (w.length % 2 ^ 32) with _ | ri
    · simp only [hri] at h
      exact BuildResult.noConfusion h
    simp only [hri] at h
    rcases hrj : calcMax (avgOf w % 2 ^ 32) with _ | rj
    · simp only [hrj] at h
      exact BuildResult.noConfusion h
    simp only [hrj] at h
    by_cases hchk : checkAvgP ⟨clearLarge (avgOf w) lgF tF, ri, rj,
        avgOf w % 2 ^ 32, w.length⟩ = true
    · rw [if_pos hchk] at h
      have hal : (⟨clearLarge (avgOf w) lgF tF, ri, rj,
          avgOf w % 2 ^ 32, w.length⟩ : AliasTable) = al :=
        Option.some.inj ((BuildResult.ret.injEq _ _ _ _).mp h).1
      obtain ⟨_, hriv⟩ := calcMax_some _ _ hri
      have hriv' : ri = calcMaxVal w.length := by
        rw [hriv, Nat.mod_eq_of_lt hn32]
      obtain ⟨_, hrjv⟩ := calcMax_some _ _ hrj
      have ha32 : avgOf w % 2 ^ 32 = avgOf w := by omega
      have hrjv' : rj = calcMaxVal (avgOf w) := by
        rw [hrjv, ha32]
      have hsum' : (w.map u32ofInt).sum + 0 = avgOf w * w.length := by
        rw [hwsum]
        omega
      have hD0' : (0 : Nat) = 0 → ∀ p ∈ w, 1 ≤ u32ofInt p := by
        intro _ p hpm
        obtain ⟨a, b⟩ := hw p hpm
        rw [u32ofInt_eq_toNat p (by omega) (by omega)]
        omega
      rw [hsm0] at hvv
      obtain ⟨hclen, hcent⟩ := pipeline_ok_spec (avgOf w) w.length w 0
        (by omega) (by omega) (by omega) rfl hsum' hD0' lgF tF hvv
      obtain ⟨e, hem, hep⟩ := checkAvgP_exists
        ⟨clearLarge (avgOf w) lgF tF, ri, rj, avgOf w % 2 ^ 32, w.length⟩
        (by show 1 ≤ avgOf w % 2 ^ 32; omega)
        (by show avgOf w % 2 ^ 32 ≤ 2 ^ 32; omega) hchk
      rw [← hal]
      refine ⟨?_, ?_, rfl, ?_, ?_, by omega, by omega, by omega, by omega, ?_, ?_⟩
      · show (clearLarge (avgOf w) lgF tF).length = finalN w
        rw [hfn]; exact hclen
      · show avgOf w % 2 ^ 32 = finalAvg w
        rw [hfa]; exact ha32
      · show ri = calcMaxVal (finalN w)
        rw [hfn]; exact hriv'
      · show rj = calcMaxVal (finalAvg w)
        rw [hfa]; exact hrjv'
      · show ∀ e ∈ clearLarge (avgOf w) lgF tF,
          e.prob + 1 ≤ finalAvg w ∧ e.aliasIdx < finalN w
        rw [hfa, hfn]; exact hcent
      · show ∃ e ∈ clearLarge (avgOf w) lgF tF, e.prob = finalAvg w - 1
        refine ⟨e, hem, ?_⟩
        rw [hfa]
        rw [hep]
        show avgOf w % 2 ^ 32 - 1 = avgOf w - 1
        omega
    · rw [if_neg hchk] at h
      exact BuildResult.noConfusion h

theorem newInt_wellFormed (w : List Int) (al : AliasTable) (hv : ValidWeights w)
    (h : newInt w = .ret (some al) none) : WellFormed al := by
  obtain ⟨hlen, havgP, hdum, hri, hrj, ha1, ha31, hn1, hn32, hent, hex⟩ :=
    newInt_ok_spec w hv al h
  refine ⟨by omega, by omega, by omega, by omega, ?_, ?_, ?_, ?_, ?_⟩
  · intro e he
    obtain ⟨h1, h2⟩ := hent e he
    exact ⟨by omega, by omega⟩
  · obtain ⟨e, he, hp⟩ := hex
    exact ⟨e, he, by omega⟩
  · rw [hri, hlen]
  · rw [hrj, havgP]
  · have := hv.2.1
    omega

theorem newInt_roundtrip (w : List Int) (al₀ al : AliasTable) (hv : ValidWeights w)
    (h : newInt w = .ret (some al) none) :
    unmarshalBinary al₀ (marshalBinary al) = .ret none al :=
  roundtrip_of_wellFormed al₀ al (newInt_wellFormed w al hv h)

theorem newInt_gen_in_range (w : List Int) (al : AliasTable) (r v : Nat)
    (hv : ValidWeights w) (h : newInt w = .ret (some al) none)
    (hg : gen1 al r = .val v) : v < w.length ∧ v ≠ al.dummy := by
  obtain ⟨hlen, havgP, hdum, hri, hrj, ha1, ha31, hn1, hn32, hent, hex⟩ :=
    newInt_ok_spec w hv al h
  have hfn : finalN w ≤ w.length + 1 := by
    rw [finalN]
    split <;> omega
  obtain ⟨h1, h2⟩ := gen1_val al r v (by omega) (by omega) (by omega)
    (fun e he => by have := (hent e he).2; omega) hg
  refine ⟨?_, h2⟩
  have h3 : v ≠ w.length := by
    rw [hdum] at h2
    exact h2
  omega

/-- C3: every table `NewInt` returns has passed the end-of-construction
`checkAvgP` check, and (for valid weights) the unit satisfies
`1 ≤ avgP ≤ 2^31` and AT LEAST one slot's threshold equals `avgP - 1`.  The
check demands only existence, not uniqueness — see the counterexample, where
both slots of `NewInt([1,1])`'s table sit at `avgP - 1`. -/
theorem C3_at_least_one_max_threshold (w : List Int) (al : AliasTable)
    (h : newInt w = .ret (some al) none) :
    checkAvgP al = true ∧
    (ValidWeights w →
      1 ≤ al.avgP ∧ al.avgP ≤ 2 ^ 31 ∧ ∃ e ∈ al.table, e.prob = al.avgP - 1) := by
  refine ⟨newInt_ok_checkAvgP w al h, fun hv => ?_⟩
  obtain ⟨_, havgP, _, _, _, ha1, ha31, _, _, _, hex⟩ := newInt_ok_spec w hv al h
  refine ⟨by omega, by omega, ?_⟩
  obtain ⟨e, he, hp⟩ := hex
  exact ⟨e, he, by omega⟩

theorem C3_at_least_one_max_threshold_witness :
    newInt [(2 : Int), 3] = .ret (some alTwoThree) none ∧
    (checkAvgP alTwoThree = true ∧
      (ValidWeights [(2 : Int), 3] →
        1 ≤ alTwoThree.avgP ∧ alTwoThree.avgP ≤ 2 ^ 31 ∧
        ∃ e ∈ alTwoThree.table, e.prob = alTwoThree.avgP - 1)) :=
  ⟨by decide, C3_at_least_one_max_threshold [(2 : Int), 3] alTwoThree (by decide)⟩

/-- C6: the stored rejection bounds follow Go's `calcMax`, which computes
`2^31 - 1 - (2^31 mod m)` — subtracting `2^31 mod m`, not
`(2^31 - 1) mod m` as the claim's formula says.  For `1 ≤ m ≤ 2^31` the
accepted count `bound + 1` is an exact multiple of `m` and every residue
below `m` is hit by exactly `(bound + 1) / m` accepted values, so the
post-rejection modulo is exactly uniform; for `m > 2^31` the `uint32`
subtraction wraps and the bound becomes `2^32 - 1`, accepting every draw.
On the tables `NewInt` returns, `maxRi`/`maxRj` are `calcMax` of the slot
count and of the unit, the unit never exceeds `2^31`, and the slot-count
bound takes the wrapped value exactly when the slot count exceeds `2^31`. -/
theorem C6_rejection_bounds :
    (∀ m : Nat, 1 ≤ m → m ≤ 2 ^ 31 →
      calcMaxVal m = 2 ^ 31 - 1 - 2 ^ 31 % m ∧
      (calcMaxVal m + 1) % m = 0 ∧
      ∀ k < m, ((Finset.range (calcMaxVal m + 1)).filter (fun v => v % m = k)).card
          = (calcMaxVal m + 1) / m) ∧
    (∀ m : Nat, 2 ^ 31 < m → m < 2 ^ 32 → calcMaxVal m = 2 ^ 32 - 1) ∧
    (∀ (w : List Int) (al : AliasTable), ValidWeights w →
      newInt w = .ret (some al) none →
      al.maxRi = calcMaxVal al.table.length ∧ al.maxRj = calcMaxVal al.avgP ∧
      1 ≤ al.avgP ∧ al.avgP ≤ 2 ^ 31 ∧
      al.maxRj = 2 ^ 31 - 1 - 2 ^ 31 % al.avgP ∧
      (al.table.length ≤ 2 ^ 31 → al.maxRi = 2 ^ 31 - 1 - 2 ^ 31 % al.table.length) ∧
      (2 ^ 31 < al.table.length → al.maxRi = 2 ^ 32 - 1)) := by
  refine ⟨?_, ?_, ?_⟩
  · intro m h1 h31
    have hplain := calcMaxVal_plain m h1 h31
    have hdm := Nat.div_add_mod (2 ^ 31) m
    have hmod : 2 ^ 31 % m < m := Nat.mod_lt _ (by omega)
    have hq : calcMaxVal m + 1 = m * (2 ^ 31 / m) := by omega
    refine ⟨hplain, by rw [hq]; exact Nat.mul_mod_right _ _, ?_⟩
    intro k hk
    have hqc : calcMaxVal m + 1 = (2 ^ 31 / m) * m := by
      rw [hq, Nat.mul_comm]
    have hdivq : (calcMaxVal m + 1) / m = 2 ^ 31 / m := by
      rw [hqc, Nat.mul_div_cancel _ (by omega)]
    rw [hdivq, hqc]
    exact filter_mod_card m k hk (2 ^ 31 / m)
  · intro m h31 h32
    exact calcMaxVal_wrap m h31 h32
  · intro w al hv h
    obtain ⟨hlen, havgP, hdum, hri, hrj, ha1, ha31, hn1, hn32, hent, hex⟩ :=
      newInt_ok_spec w hv al h
    refine ⟨?_, ?_, by omega, by omega, ?_, ?_, ?_⟩
    · rw [hlen]
      exact hri
    · rw [havgP]
      exact hrj
    · rw [havgP, hrj]
      exact calcMaxVal_plain _ (by omega) (by omega)
    · intro hle
      rw [hlen] at hle
      rw [hlen, hri]
      exact calcMaxVal_plain _ (by omega) hle
    · intro hgt
      rw [hlen] at hgt
      rw [hri]
      exact calcMaxVal_wrap _ hgt (by omega)

theorem C6_rejection_bounds_witness :
    (calcMaxVal 3 = 2 ^ 31 - 1 - 2 ^ 31 % 3 ∧ (calcMaxVal 3 + 1) % 3 = 0 ∧
      ∀ k < 3, ((Finset.range (calcMaxVal 3 + 1)).filter (fun v => v % 3 = k)).card
          = (calcMaxVal 3 + 1) / 3) ∧
    calcMaxVal (2 ^ 31 + 1) = 2 ^ 32 - 1 ∧
    (alOnesThree.maxRi = calcMaxVal alOnesThree.table.length ∧
      alOnesThree.maxRj = calcMaxVal alOnesThree.avgP ∧
      1 ≤ alOnesThree.avgP ∧ alOnesThree.avgP ≤ 2 ^ 31 ∧
      alOnesThree.maxRj = 2 ^ 31 - 1 - 2 ^ 31 % alOnesThree.avgP ∧
      (alOnesThree.table.length ≤ 2 ^ 31 →
        alOnesThree.maxRi = 2 ^ 31 - 1 - 2 ^ 31 % alOnesThree.table.length) ∧
      (2 ^ 31 < alOnesThree.table.length → alOnesThree.maxRi = 2 ^ 32 - 1)) :=
  ⟨C6_rejection_bounds.1 3 (by decide) (by decide),
   C6_rejection_bounds.2.1 (2 ^ 31 + 1) (by decide) (by decide),
   C6_rejection_bounds.2.2 [1, 1, 1] alOnesThree (by decide) (by decide)⟩

/-- C7 counterexample: for the `2^32 - 1` weights of `bigW` the padding is
taken, and the claim's appended weight would be
`(avg+1)(N+1) - total = 2^32 + 1`; but the code stores that value through an
`int32` conversion, which wraps it to `1`, so the actually appended weight
differs from the claimed one and the exact-divisibility guarantee is lost. -/
theorem C7_counterexample :
    ValidWeights bigW ∧ needsPad bigW ∧
    avgOf bigW = 2 ∧ totalOf bigW = 2 ^ 33 - 1 ∧
    (avgOf bigW + 1) * (bigW.length + 1) - totalOf bigW = 2 ^ 32 + 1 ∧
    paddedW bigW = bigW ++ [(1 : Int)] ∧
    (1 : Int) ≠ ((2 ^ 32 + 1 : Nat) : Int) := by
  have hlen := bigW_length
  have htot : totalOf bigW = 2 ^ 33 - 1 := bigW_total
  have hval : ValidWeights bigW := by
    refine ⟨by omega, by omega, ?_⟩
    intro x hx
    rcases List.mem_append.mp hx with hm | hm
    · rw [List.eq_of_mem_replicate hm]
      norm_num
    · rw [List.mem_singleton.mp hm]
      norm_num
  have havg : avgOf bigW = 2 := by
    rw [avgOf, hlen, htot]
    norm_num
  have hd : (avgOf bigW + 1) * (bigW.length + 1) - totalOf bigW = 2 ^ 32 + 1 := by
    rw [havg, hlen, htot]
    norm_num
  have hpad : needsPad bigW := by
    rw [needsPad, havg, hlen, htot]
    norm_num
  refine ⟨hval, hpad, havg, htot, hd, ?_, by norm_num⟩
  rw [paddedW, htot, hlen]
  rw [show (2 ^ 33 - 1 : Nat) / (2 ^ 32 - 1) % 2 ^ 32 = 2 from by norm_num]
  rw [padStep, if_pos (by norm_num)]
  rw [show ((2 : Nat) + 1) * ((2 ^ 32 - 1) + 1) - (2 ^ 33 - 1) = 2 ^ 32 + 1 from by norm_num]
  rw [show int32ofU64 (2 ^ 32 + 1) = (1 : Int) from by norm_num [int32ofU64]]

/-- C7: `NewInt`'s padding step, stated with the `int32` conversion the code
performs.  With `avg = floor(total/N)`: when `avg·N < total` exactly one
synthetic weight `int32((avg+1)(N+1) - total)` is appended and the unit and
count become `avg+1` and `N+1`; whenever the unconverted value
`(avg+1)(N+1) - total` is `int32`-representable the appended weight equals
it and the padded total is exactly `unit · count`.  When the weights divide
evenly nothing is appended.  In both cases any returned table records
`dummy = N`, the original weight count (equal to the slot count exactly in
the unpadded case). -/
theorem C7_padding (w : List Int) (hv : ValidWeights w) :
    (needsPad w →
      paddedW w = w ++ [int32ofU64 ((avgOf w + 1) * (w.length + 1) - totalOf w)] ∧
      finalAvg w = avgOf w + 1 ∧ finalN w = w.length + 1 ∧
      ((avgOf w + 1) * (w.length + 1) - totalOf w < 2 ^ 31 →
        paddedW w = w ++ [(((avgOf w + 1) * (w.length + 1) - totalOf w : Nat) : Int)] ∧
        totalOf (paddedW w) = finalAvg w * finalN w)) ∧
    (¬ needsPad w →
      paddedW w = w ∧ finalAvg w = avgOf w ∧ finalN w = w.length ∧
      totalOf (paddedW w) = finalAvg w * finalN w) ∧
    (∀ al, newInt w = .ret (some al) none → al.dummy = w.length) := by
  obtain ⟨hn1, hn32, hw⟩ := hv
  have htot : w.length ≤ totalOf w :=
    sum_map_toNat_ge_length w (fun x hx => (hw x hx).1)
  have htotle : totalOf w ≤ w.length * (2 ^ 31 - 1) :=
    sum_map_toNat_le w (fun x hx => (hw x hx).2)
  have havg1 : 1 ≤ avgOf w := by
    rw [avgOf]
    exact Nat.one_le_div_iff (by omega) |>.mpr htot
  have havg31 : avgOf w ≤ 2 ^ 31 - 1 := by
    have hlt : totalOf w < 2 ^ 31 * w.length := by
      have e1 : w.length * (2 ^ 31 - 1) + w.length = 2 ^ 31 * w.length := by ring
      omega
    have hdiv : totalOf w / w.length < 2 ^ 31 :=
      (Nat.div_lt_iff_lt_mul (by omega)).mpr hlt
    rw [avgOf]
    omega
  have havgmod : totalOf w / w.length % 2 ^ 32 = avgOf w := by
    have : totalOf w / w.length = avgOf w := rfl
    omega
  have hmodtot : w.length * avgOf w + totalOf w % w.length = totalOf w := by
    rw [avgOf]
    exact Nat.div_add_mod _ _
  have hmodlt : totalOf w % w.length < w.length := Nat.mod_lt _ (by omega)
  have hcomm : avgOf w * w.length = w.length * avgOf w := Nat.mul_comm _ _
  have hexp : (avgOf w + 1) * (w.length + 1)
      = avgOf w * w.length + avgOf w + w.length + 1 := by ring
  refine ⟨?_, ?_, fun al h => (newInt_ok_spec w ⟨hn1, hn32, hw⟩ al h).2.2.1⟩
  · intro hp
    have hp' : avgOf w * w.length < totalOf w := hp
    have hfa : finalAvg w = avgOf w + 1 := by rw [finalAvg, if_pos hp]
    have hfn : finalN w = w.length + 1 := by rw [finalN, if_pos hp]
    have hpadEq : padStep w w.length (totalOf w) (totalOf w / w.length % 2 ^ 32)
        = (w ++ [int32ofU64 ((avgOf w + 1) * (w.length + 1) - totalOf w)],
            avgOf w + 1, w.length + 1) := by
      rw [havgmod, padStep, if_pos hp']
    have hpw : paddedW w
        = w ++ [int32ofU64 ((avgOf w + 1) * (w.length + 1) - totalOf w)] := by
      rw [paddedW, hpadEq]
    refine ⟨hpw, hfa, hfn, ?_⟩
    intro hlt
    have hsm : int32ofU64 ((avgOf w + 1) * (w.length + 1) - totalOf w)
        = (((avgOf w + 1) * (w.length + 1) - totalOf w : Nat) : Int) :=
      int32ofU64_small _ hlt
    refine ⟨by rw [hpw, hsm], ?_⟩
    rw [hpw, hsm, totalOf, List.map_append, List.sum_append]
    simp only [List.map_cons, List.map_nil, List.sum_cons, List.sum_nil]
    rw [show ((w.map Int.toNat).sum : Nat) = totalOf w from rfl]
    rw [Int.toNat_natCast, hfa, hfn]
    omega
  · intro hp
    have hp' : ¬ avgOf w * w.length < totalOf w := hp
    have hfa : finalAvg w = avgOf w := by rw [finalAvg, if_neg hp]
    have hfn : finalN w = w.length := by rw [finalN, if_neg hp]
    have hpw : paddedW w = w := by
      rw [paddedW, havgmod, padStep, if_neg hp']
    refine ⟨hpw, hfa, hfn, ?_⟩
    rw [hpw, hfa, hfn]
    show totalOf w = avgOf w * w.length
    omega

theorem C7_padding_witness :
    ValidWeights [(1 : Int), 1, 1, 2] ∧ needsPad [(1 : Int), 1, 1, 2] ∧
    (avgOf [(1 : Int), 1, 1, 2] + 1) * ([(1 : Int), 1, 1, 2].length + 1)
        - totalOf [(1 : Int), 1, 1, 2] < 2 ^ 31 ∧
    paddedW [(1 : Int), 1, 1, 2]
      = [(1 : Int), 1, 1, 2] ++ [int32ofU64 ((avgOf [(1 : Int), 1, 1, 2] + 1)
          * ([(1 : Int), 1, 1, 2].length + 1) - totalOf [(1 : Int), 1, 1, 2])] ∧
    finalAvg [(1 : Int), 1, 1, 2] = avgOf [(1 : Int), 1, 1, 2] + 1 ∧
    finalN [(1 : Int), 1, 1, 2] = [(1 : Int), 1, 1, 2].length + 1 ∧
    totalOf (paddedW [(1 : Int), 1, 1, 2])
      = finalAvg [(1 : Int), 1, 1, 2] * finalN [(1 : Int), 1, 1, 2] := by
  have h := (C7_padding [(1 : Int), 1, 1, 2] (by decide)).1 (by decide)
  have hlt : (avgOf [(1 : Int), 1, 1, 2] + 1) * ([(1 : Int), 1, 1, 2].length + 1)
      - totalOf [(1 : Int), 1, 1, 2] < 2 ^ 31 := by decide
  exact ⟨by decide, by decide, hlt, h.1, h.2.1, h.2.2.1, (h.2.2.2 hlt).2⟩

/-- C9: for `NewInt` — an error is returned exactly on the three invalid
inputs (empty slice, length beyond the 32-bit index range, a non-positive
weight), with precedence too-few, too-many, non-positive; every error return
carries a nil table; and on any valid input in the wrap-free range
(count + average below `2^31`) a table is returned with no error.  Outside
that range a valid input can make the builder panic instead of returning
(see the counterexample).  The float builder `New` is not formalized. -/
theorem C9_error_iff (w : List Int) :
    (w.length < 1 → newInt w = .ret none (some "too few probabilities")) ∧
    (1 ≤ w.length → 2 ^ 32 ≤ w.length →
      newInt w = .ret none (some "too many probabilities")) ∧
    (1 ≤ w.length → w.length < 2 ^ 32 → (∃ x ∈ w, x ≤ 0) →
      newInt w = .ret none (some "a probability is non-positive")) ∧
    (∀ (t : Option AliasTable) (e : String), newInt w = .ret t (some e) →
      t = none ∧ (w.length < 1 ∨ 2 ^ 32 ≤ w.length ∨ ∃ x ∈ w, x ≤ 0)) ∧
    (ValidWeights w → SmallInput w → ∃ al, newInt w = .ret (some al) none) := by
  refine ⟨?_, ?_, ?_, ?_, ?_⟩
  · intro h1
    rw [newInt, if_pos h1]
  · intro h1 h2
    rw [newInt, if_neg (by omega), if_pos (by omega)]
  · intro h1 h2 hex
    obtain ⟨x, hx, hx0⟩ := hex
    rw [newInt, if_neg (by omega), if_neg (by push_neg; omega),
      if_pos (List.any_eq_true.mpr ⟨x, hx, by simpa using hx0⟩)]
  · intro t e h
    rw [newInt] at h
    by_cases hc1 : w.length < 1
    · rw [if_pos hc1] at h
      obtain ⟨h1, _⟩ := (BuildResult.ret.injEq _ _ _ _).mp h
      exact ⟨h1.symm, Or.inl hc1⟩
    · rw [if_neg hc1] at h
      by_cases hc2 : w.length < 2 ^ 32
      · rw [if_neg (not_not_intro hc2)] at h
        by_cases hc3 : w.any (· ≤ 0) = true
        · rw [if_pos hc3] at h
          obtain ⟨h1, _⟩ := (BuildResult.ret.injEq _ _ _ _).mp h
          refine ⟨h1.symm, Or.inr (Or.inr ?_)⟩
          obtain ⟨x, hx, hx0⟩ := List.any_eq_true.mp hc3
          exact ⟨x, hx, by simpa using hx0⟩
        · rw [if_neg hc3] at h
          simp only [] at h
          split at h
          · exact BuildResult.noConfusion h
          · split at h
            · exact BuildResult.noConfusion h
            · split at h
              · exact BuildResult.noConfusion h
              · split at h
                · exact BuildResult.noConfusion h
                · split at h
                  · exact Option.noConfusion ((BuildResult.ret.injEq _ _ _ _).mp h).2
                  · exact BuildResult.noConfusion h
      · rw [if_pos hc2] at h
        obtain ⟨h1, _⟩ := (BuildResult.ret.injEq _ _ _ _).mp h
        exact ⟨h1.symm, Or.inr (Or.inl (by omega))⟩
  · intro hv hs
    obtain ⟨al, lgF, tF, hok, _⟩ := newInt_spec w hv hs
    exact ⟨al, hok⟩

theorem C9_error_iff_witness :
    newInt ([] : List Int) = .ret none (some "too few probabilities") ∧
    (ValidWeights [(1 : Int), 1] ∧ SmallInput [(1 : Int), 1] ∧
      ∃ al, newInt [(1 : Int), 1] = .ret (some al) none) :=
  ⟨(C9_error_iff ([] : List Int)).1 (by decide),
   by decide, by decide,
   (C9_error_iff [(1 : Int), 1]).2.2.2.2 (by decide) (by decide)⟩
